import Mathlib

/-!
# meta-fuse: verification of the metadata-to-VFS projection engine

Shallow embedding of the meta-fuse core (TypeScript) into Lean 4:

* `packages/meta-fuse-core/src/vfs/template/TemplateEngine.ts`
* `packages/meta-fuse-core/src/vfs/template/ConditionEvaluator.ts`
* `packages/meta-fuse-core/src/vfs/RenamingRule.ts` (`sanitizePath`)
* `packages/meta-fuse-core/src/vfs/RulesPropertyExtractor.ts`
* `packages/meta-fuse-core/src/vfs/StreamingStateBuilder.ts`
* `packages/meta-fuse-core/src/vfs/VirtualFileSystem.ts` (streaming-mode class)
* `packages/meta-fuse-core/src/config/ConfigStorage.ts`

Modelling conventions:

* JavaScript `Map` objects are modelled as insertion-ordered association
  lists.  `Map.set` replaces the value at an existing key in place and
  appends otherwise; `Map.delete` removes the key.  Since a real `Map`
  never holds duplicate keys, `mapSet`/`mapDelete` act on every occurrence
  of the key, which agrees with `Map` semantics on duplicate-free lists and
  keeps the operations well behaved on arbitrary lists.
* JavaScript `Set` objects are insertion-ordered lists without duplicates
  (`setAdd` appends only when absent).
* JavaScript numbers are modelled as `Option Int`, with `none` playing the
  role of `NaN`.  Strings denoting non-integer floating point numbers are
  outside the modelled value space (floating point is not modelled).
* Wall-clock reads (`Date.now()`) are passed in as an explicit `now : Int`
  argument (epoch milliseconds).
* `RegExp` tests of user-supplied `MATCHES` patterns are abstracted by an
  oracle parameter `rx : String → String → Bool` standing for the
  `try { new RegExp(pattern).test(value) } catch { false }` block; no
  verified claim depends on its values.  The fixed regular expressions of
  the template parser are translated directly into string functions.
-/

namespace MetaFuse

/-! ## JavaScript `Map` / `Set` model -/

/-- `Map.get`: value of the first (in a real `Map`: only) entry for `k`. -/
def mapLookup : List (String × β) → String → Option β
  | [], _ => none
  | e :: es, k => if e.1 = k then some e.2 else mapLookup es k

/-- `Map.has`. -/
def mapHas : List (String × β) → String → Bool
  | [], _ => false
  | e :: es, k => decide (e.1 = k) || mapHas es k

/-- Replace the value of every entry for `k` (a real `Map` has at most one). -/
def mapReplace (k : String) (v : β) : List (String × β) → List (String × β)
  | [] => []
  | e :: es => (if e.1 = k then (k, v) else e) :: mapReplace k v es

/-- `Map.set`: replace the entry for `k` in place, else append. -/
def mapSet (m : List (String × β)) (k : String) (v : β) : List (String × β) :=
  if mapHas m k then mapReplace k v m else m ++ [(k, v)]

/-- `Map.delete`: remove the entry for `k`. -/
def mapDelete : List (String × β) → String → List (String × β)
  | [], _ => []
  | e :: es, k => if e.1 = k then mapDelete es k else e :: mapDelete es k

/-- `Set.add`: append if not already present. -/
def setAdd (s : List String) (x : String) : List String :=
  if x ∈ s then s else s ++ [x]

/-- `Set.delete`. -/
def setDelete (s : List String) (x : String) : List String :=
  s.filter (fun y => ¬ y = x)

theorem mapLookup_replace_self (m : List (String × β)) (k : String) (v : β)
    (h : mapHas m k = true) : mapLookup (mapReplace k v m) k = some v := by
  induction m with
  | nil => simp [mapHas] at h
  | cons e es ih =>
    by_cases he : e.1 = k
    · simp [mapReplace, mapLookup, he]
    · simp only [mapHas, Bool.or_eq_true, decide_eq_true_eq] at h
      rcases h with h | h
      · exact absurd h he
      · simp [mapReplace, mapLookup, he, ih h]

theorem mapLookup_set_self (m : List (String × β)) (k : String) (v : β) :
    mapLookup (mapSet m k v) k = some v := by
  unfold mapSet
  split
  · exact mapLookup_replace_self m k v (by assumption)
  · induction m with
    | nil => simp [mapLookup]
    | cons e es ih =>
      rename_i h
      simp only [mapHas, Bool.or_eq_true, decide_eq_true_eq, not_or] at h
      simp only [List.cons_append, mapLookup, if_neg h.1]
      exact ih (by simp [mapHas, h.2])

theorem mapLookup_replace_other (m : List (String × β)) (k k' : String) (v : β)
    (hne : k' ≠ k) : mapLookup (mapReplace k v m) k' = mapLookup m k' := by
  induction m with
  | nil => rfl
  | cons e es ih =>
    by_cases he : e.1 = k
    · have : ¬ (k : String) = k' := Ne.symm hne
      simp [mapReplace, mapLookup, he, this, ih, he ▸ this]
    · simp only [mapReplace, if_neg he, mapLookup]
      by_cases he' : e.1 = k' <;> simp [he', ih]

theorem mapLookup_append_single (m : List (String × β)) (k k' : String) (v : β)
    (hne : k' ≠ k) : mapLookup (m ++ [(k, v)]) k' = mapLookup m k' := by
  induction m with
  | nil => simp [mapLookup, Ne.symm hne]
  | cons e es ih =>
    by_cases he' : e.1 = k'
    · simp [mapLookup, he']
    · simp [mapLookup, he', ih]

theorem mapLookup_set_other (m : List (String × β)) (k k' : String) (v : β)
    (hne : k' ≠ k) : mapLookup (mapSet m k v) k' = mapLookup m k' := by
  unfold mapSet
  split
  · exact mapLookup_replace_other m k k' v hne
  · exact mapLookup_append_single m k k' v hne

theorem mapHas_replace (m : List (String × β)) (k k' : String) (v : β) :
    mapHas (mapReplace k v m) k' = mapHas m k' := by
  induction m with
  | nil => rfl
  | cons e es ih =>
    by_cases he : e.1 = k
    · simp [mapReplace, mapHas, he, ih]
    · simp [mapReplace, mapHas, he, ih]

theorem mapHas_append (m m' : List (String × β)) (k : String) :
    mapHas (m ++ m') k = (mapHas m k || mapHas m' k) := by
  induction m with
  | nil => simp [mapHas]
  | cons e es ih => simp [mapHas, ih, Bool.or_assoc]

theorem mapHas_set (m : List (String × β)) (k k' : String) (v : β)
    (h : mapHas m k' = true) : mapHas (mapSet m k v) k' = true := by
  unfold mapSet
  split
  · rw [mapHas_replace]; exact h
  · rw [mapHas_append]; simp [h]

theorem mapReplace_replace_same (m : List (String × β)) (k : String) (v : β) :
    mapReplace k v (mapReplace k v m) = mapReplace k v m := by
  induction m with
  | nil => rfl
  | cons e es ih =>
    by_cases he : e.1 = k
    · simp [mapReplace, he, ih]
    · simp [mapReplace, he, ih]

theorem mapReplace_eq_self (m : List (String × β)) (k : String) (v : β)
    (hall : ∀ e ∈ m, e.1 = k → e = (k, v)) : mapReplace k v m = m := by
  induction m with
  | nil => rfl
  | cons e es ih =>
    by_cases he : e.1 = k
    · have he' := hall e (by simp) he
      simp only [mapReplace, if_pos he, ← he']
      exact congrArg _ (ih (fun g hg hk => hall g (by simp [hg]) hk))
    · simp only [mapReplace, if_neg he]
      exact congrArg _ (ih (fun g hg hk => hall g (by simp [hg]) hk))

theorem mapHas_eq_false_no_key (m : List (String × β)) (k : String)
    (h : mapHas m k = false) : ∀ e ∈ m, ¬ e.1 = k := by
  induction m with
  | nil => simp
  | cons e es ih =>
    simp only [mapHas, Bool.or_eq_false_iff, decide_eq_false_iff_not] at h
    intro g hg
    rcases List.mem_cons.mp hg with hg' | hg'
    · simpa [hg'] using h.1
    · exact ih h.2 g hg'

theorem mapSet_set_same (m : List (String × β)) (k : String) (v : β) :
    mapSet (mapSet m k v) k v = mapSet m k v := by
  unfold mapSet
  split
  · rename_i h
    rw [if_pos (by rw [mapHas_replace]; exact h)]
    exact mapReplace_replace_same m k v
  · rename_i h
    have hh : mapHas (m ++ [(k, v)]) k = true := by
      induction m with
      | nil => simp [mapHas]
      | cons e es ih => simp [mapHas] at *; tauto
    rw [if_pos hh]
    apply mapReplace_eq_self
    intro e he hk
    rcases List.mem_append.mp he with hm | hm
    · exact absurd hk (mapHas_eq_false_no_key m k (by simpa using h) e hm)
    · simpa using hm

/-- If every entry for `k` already carries value `v` and some entry for `k`
exists, then `mapSet` is the identity. -/
theorem mapSet_eq_self (m : List (String × β)) (k : String) (v : β)
    (hmem : mapHas m k = true)
    (hall : ∀ e ∈ m, e.1 = k → e = (k, v)) : mapSet m k v = m := by
  unfold mapSet
  rw [if_pos hmem]
  exact mapReplace_eq_self m k v hall

/-- Deleting a present key strictly shrinks the list. -/
theorem length_mapDelete_lt (m : List (String × β)) (k : String)
    (h : mapHas m k = true) : (mapDelete m k).length < m.length := by
  induction m with
  | nil => simp [mapHas] at h
  | cons e es ih =>
    by_cases he : e.1 = k
    · simp only [mapDelete, if_pos he, List.length_cons]
      calc (mapDelete es k).length ≤ es.length := by
              clear ih h
              induction es with
              | nil => simp [mapDelete]
              | cons f fs ihf =>
                by_cases hf : f.1 = k <;> simp [mapDelete, hf] <;> omega
        _ < es.length + 1 := by omega
    · simp only [mapHas, Bool.or_eq_true, decide_eq_true_eq] at h
      rcases h with h | h
      · exact absurd h he
      · simp only [mapDelete, if_neg he, List.length_cons]
        exact Nat.succ_lt_succ (ih h)

theorem mapLookup_delete_other (m : List (String × β)) (k k' : String)
    (hne : k' ≠ k) : mapLookup (mapDelete m k) k' = mapLookup m k' := by
  induction m with
  | nil => rfl
  | cons e es ih =>
    by_cases hek : e.1 = k
    · have h2 : ¬ e.1 = k' := by rw [hek]; exact Ne.symm hne
      rw [mapDelete, if_pos hek, mapLookup, if_neg h2, ih]
    · by_cases hek' : e.1 = k'
      · rw [mapDelete, if_neg hek, mapLookup, if_pos hek', mapLookup, if_pos hek']
      · rw [mapDelete, if_neg hek, mapLookup, if_neg hek', ih, mapLookup, if_neg hek']

theorem mapLookup_delete_self (m : List (String × β)) (k : String) :
    mapLookup (mapDelete m k) k = none := by
  induction m with
  | nil => rfl
  | cons e es ih =>
    by_cases hek : e.1 = k
    · simpa [mapDelete, hek] using ih
    · simpa [mapDelete, mapLookup, hek] using ih

theorem setAdd_add_same (s : List String) (x : String) :
    setAdd (setAdd s x) x = setAdd s x := by
  unfold setAdd
  by_cases h : x ∈ s
  · rw [if_pos h, if_pos h]
  · rw [if_neg h, if_pos (by simp)]

/-! ## JavaScript value model

Values reachable through the metadata objects handed to the template engine
and condition evaluator.  JavaScript numbers are `Option Int` with `none`
standing for `NaN`; non-integer floats are outside the modelled space. -/

inductive JVal where
  /-- a string -/
  | vstr (s : String)
  /-- a number (`none` = `NaN`) -/
  | vnum (n : Option Int)
  /-- a boolean -/
  | vbool (b : Bool)
  /-- `undefined` -/
  | vundef
  /-- `null` -/
  | vnull
  /-- a plain object -/
  | vobj (fields : List (String × JVal))

/-- `value === null || value === undefined` -/
def JVal.isMissing : JVal → Bool
  | .vnull => true
  | .vundef => true
  | _ => false

/-- JavaScript `String(value)` on the modelled value space. -/
def jsToString : JVal → String
  | .vstr s => s
  | .vnum (some n) => toString n
  | .vnum none => "NaN"
  | .vbool true => "true"
  | .vbool false => "false"
  | .vundef => "undefined"
  | .vnull => "null"
  | .vobj _ => "[object Object]"

/-- JavaScript `Number(value)` restricted to the modelled value space
(strings with fractional numeric values are outside the model). -/
def jsToNumber : JVal → Option Int
  | .vstr s =>
      let t := s.data.dropWhile Char.isWhitespace |>.reverse.dropWhile Char.isWhitespace |>.reverse
      if t = [] then some 0
      else
        match t with
        | '-' :: ds => if ds ≠ [] ∧ ds.all Char.isDigit then
            some (-(Int.ofNat (ds.foldl (fun a c => a * 10 + (c.toNat - 48)) 0))) else none
        | '+' :: ds => if ds ≠ [] ∧ ds.all Char.isDigit then
            some (Int.ofNat (ds.foldl (fun a c => a * 10 + (c.toNat - 48)) 0)) else none
        | ds => if ds.all Char.isDigit then
            some (Int.ofNat (ds.foldl (fun a c => a * 10 + (c.toNat - 48)) 0)) else none
  | .vnum n => n
  | .vbool true => some 1
  | .vbool false => some 0
  | .vundef => none
  | .vnull => some 0
  | .vobj _ => none

/-- Value of leading decimal digits. -/
def digitsVal (ds : List Char) : Nat :=
  ds.foldl (fun a c => a * 10 + (c.toNat - 48)) 0

/-- JavaScript `parseInt(s, 10)`: skip whitespace, optional sign, leading
decimal digits; `none` = `NaN` when no digit is found. -/
def jsParseInt (s : String) : Option Int :=
  let t := s.data.dropWhile Char.isWhitespace
  match t with
  | '-' :: r =>
      let ds := r.takeWhile Char.isDigit
      if ds = [] then none else some (-(Int.ofNat (digitsVal ds)))
  | '+' :: r =>
      let ds := r.takeWhile Char.isDigit
      if ds = [] then none else some (Int.ofNat (digitsVal ds))
  | r =>
      let ds := r.takeWhile Char.isDigit
      if ds = [] then none else some (Int.ofNat (digitsVal ds))

/-- JavaScript `parseFloat(s)` restricted to the integer-valued part of the
modelled space: sign and leading digits (fractional parts are outside the
model, cf. module comment). -/
def jsParseFloat (s : String) : Option Int :=
  jsParseInt s

/-- Host `Date.parse`.  No verified claim depends on its output beyond
determinism; the model treats every string as unparseable (`NaN`), after
which the source falls back to `parseFloat`. -/
def jsDateParse (_s : String) : Option Int :=
  none

/-- Truthiness of a JavaScript number (`0` and `NaN` are falsy):
`a || b`. -/
def numOr (a : Option Int) (b : Int) : Int :=
  match a with
  | some n => if n = 0 then b else n
  | none => b

/-- Truthiness of `Option String` (absent and `""` are falsy): `a || b`. -/
def strOr (a : Option String) (b : String) : String :=
  match a with
  | some s => if s = "" then b else s
  | none => b

/-- `String.prototype.padStart(n, "0")`. -/
def padStart (s : String) (n : Nat) : String :=
  if s.length ≥ n then s
  else String.mk (List.replicate (n - s.length) '0') ++ s

/-! Structural (kernel-reducible) replacements for the host string
operations `split`, `startsWith`, `endsWith`, `toUpperCase`,
`toLowerCase`. -/

/-- `s.split(sep)` for a one-character separator (keeps empty pieces;
`"".split(sep) = [""]`). -/
def jsSplitCharAux (sep : Char) : List Char → List Char → List String
  | [], acc => [String.mk acc.reverse]
  | c :: rest, acc =>
      if c = sep then String.mk acc.reverse :: jsSplitCharAux sep rest []
      else jsSplitCharAux sep rest (c :: acc)

def jsSplitChar (sep : Char) (s : String) : List String :=
  jsSplitCharAux sep s.data []

/-- `s.startsWith(pre)`. -/
def strStartsWith (s pre : String) : Bool :=
  pre.data.isPrefixOf s.data

/-- `s.toUpperCase()` / `s.toLowerCase()` (ASCII; the modelled inputs are
ASCII). -/
def jsToUpper (s : String) : String := String.mk (s.data.map Char.toUpper)

def jsToLower (s : String) : String := String.mk (s.data.map Char.toLower)

/-! ## `getNestedValue` (TemplateEngine.ts)

```js
export function getNestedValue(obj, path) {
  const parts = path.split('.');
  let current = obj;
  for (const part of parts) {
    if (current === null || current === undefined) return undefined;
    if (typeof current !== 'object') return undefined;
    current = current[part];
  }
  return current;
}
```
Note `typeof null === 'object'`, but the `null` check fires first. -/

/-- Property read `current[part]` on the modelled values: objects look up the
field (missing → `undefined`); `typeof current !== 'object'` was already
excluded by the caller. -/
def jsIndex (v : JVal) (part : String) : JVal :=
  match v with
  | .vobj fields => (mapLookup fields part).getD .vundef
  | _ => .vundef

def getNestedValueGo : JVal → List String → JVal
  | current, [] => current
  | current, part :: parts =>
      match current with
      | .vnull => .vundef
      | .vundef => .vundef
      | .vobj fields => getNestedValueGo (jsIndex (.vobj fields) part) parts
      | _ => .vundef

def getNestedValue (obj : JVal) (path : String) : JVal :=
  getNestedValueGo obj (jsSplitChar '.' path)

/-! ## Template engine (TemplateEngine.ts)

The fixed regular expressions of `parseVariable` are translated into string
functions.  Since `?`, `(`, `|`, `:` do not belong to the identifier
character class `[a-zA-Z0-9_.]`, each regex admits exactly one match shape:
the maximal identifier prefix followed by the literal separator. -/

/-- `[a-zA-Z_]` -/
def isFieldStartChar (c : Char) : Bool := c.isAlpha || c = '_'

/-- `[a-zA-Z0-9_.]` -/
def isFieldChar (c : Char) : Bool := c.isAlphanum || c = '_' || c = '.'

/-- `[a-z0-9]` (format specifiers) -/
def isFormatChar (c : Char) : Bool := ('a' ≤ c ∧ c ≤ 'z') || c.isDigit

/-- Characters matched by `.` in a regex without the `/s` flag
(everything except line terminators). -/
def jsDotNoS (c : Char) : Bool :=
  ¬(c = '\n' ∨ c = '\r' ∨ c.val = 0x2028 ∨ c.val = 0x2029)

/-- Maximal match of `[a-zA-Z_][a-zA-Z0-9_.]*` at the front of the input. -/
def identPrefix : List Char → Option (List Char × List Char)
  | [] => none
  | c :: rest =>
      if isFieldStartChar c then
        some (c :: rest.takeWhile isFieldChar, rest.dropWhile isFieldChar)
      else none

/-- The `fieldPattern` regex `^[a-zA-Z_][a-zA-Z0-9_.]*$`. -/
def isFieldNameStr (s : String) : Bool :=
  match identPrefix s.data with
  | some (_, []) => true
  | _ => false

/-- `/^([a-zA-Z_][a-zA-Z0-9_.]*)\?\((.*)\)$/s` : field and inner template. -/
def condMatch (cs : List Char) : Option (List Char × List Char) :=
  match identPrefix cs with
  | some (id, '?' :: '(' :: rest) =>
      match rest.reverse with
      | ')' :: midrev => some (id, midrev.reverse)
      | _ => none
  | _ => none

/-- `/^([a-zA-Z_][a-zA-Z0-9_.]*):([a-z0-9]+)$/` : field and format. -/
def formatMatch (cs : List Char) : Option (List Char × List Char) :=
  match identPrefix cs with
  | some (id, ':' :: rest) =>
      if rest ≠ [] ∧ rest.all isFormatChar then some (id, rest) else none
  | _ => none

/-- `/^([a-zA-Z_][a-zA-Z0-9_.]*)\|(.+)$/` : field and default value
(`.` without `/s` excludes line terminators). -/
def defaultMatch (cs : List Char) : Option (List Char × List Char) :=
  match identPrefix cs with
  | some (id, '|' :: rest) =>
      if rest ≠ [] ∧ rest.all jsDotNoS then some (id, rest) else none
  | _ => none

/-- Template tokens (the unused `value` field of the source `Token` record,
only read by `validate`, is omitted). -/
inductive Token where
  | literal (value : String)
  | varTok (field : String) (format : Option String)
  | optionalTok (field : String) (format : Option String)
  | conditional (field : String) (innerTemplate : String)
  | defaultTok (field : String) (defaultValue : String)
  deriving Repr, DecidableEq

/-- `parseVariable(content)` : dispatch in source order — conditional,
optional (with optional format), default, format, simple variable. -/
def parseVariable (content : String) : Token :=
  match condMatch content.data with
  | some (id, inner) => .conditional (String.mk id) (String.mk inner)
  | none =>
    if content.data.getLast? = some '?' then
      let field := String.mk content.data.dropLast
      match formatMatch field.data with
      | some (id, fmt) => .optionalTok (String.mk id) (some (String.mk fmt))
      | none => .optionalTok field none
    else
      match defaultMatch content.data with
      | some (id, dv) => .defaultTok (String.mk id) (String.mk dv)
      | none =>
        match formatMatch content.data with
        | some (id, fmt) => .varTok (String.mk id) (some (String.mk fmt))
        | none => .varTok content none

/-- `applyFormat(value, format)`. -/
def applyFormat (value : JVal) (format : String) : String :=
  if value.isMissing then ""
  else
    let strValue := jsToString value
    match format with
    | "pad2" => padStart strValue 2
    | "pad3" => padStart strValue 3
    | "pad4" => padStart strValue 4
    | "upper" => jsToUpper strValue
    | "uppercase" => jsToUpper strValue
    | "lower" => jsToLower strValue
    | "lowercase" => jsToLower strValue
    | _ =>
      match format.data with
      | 'p' :: 'a' :: 'd' :: ds =>
          if ds ≠ [] ∧ ds.all Char.isDigit then padStart strValue (digitsVal ds)
          else strValue
      | _ => strValue

/-- The brace-matching scan of `tokenize`: called just after an opening
brace with `depth = 0`; returns the enclosed content and the remainder
after the matching close, or `none` when unbalanced. -/
def findClose : List Char → Nat → Option (List Char × List Char)
  | [], _ => none
  | c :: rest, depth =>
    if c = '{' then (findClose rest (depth + 1)).map (fun p => (c :: p.1, p.2))
    else if c = '}' then
      if depth = 0 then some ([], rest)
      else (findClose rest (depth - 1)).map (fun p => (c :: p.1, p.2))
    else (findClose rest depth).map (fun p => (c :: p.1, p.2))

theorem findClose_rest_lt :
    ∀ (cs : List Char) (d : Nat) (content rest : List Char),
      findClose cs d = some (content, rest) → rest.length < cs.length := by
  intro cs
  induction cs with
  | nil => intro d content rest h; simp [findClose] at h
  | cons c cs ih =>
    intro d content rest h
    simp only [findClose] at h
    split at h
    · cases hrec : findClose cs (d + 1) with
      | none => rw [hrec] at h; exact Option.noConfusion h
      | some p =>
        rw [hrec] at h
        cases h
        exact Nat.lt_succ_of_lt (ih _ p.1 p.2 (by rw [hrec]))
    · split at h
      · split at h
        · cases h
          simp
        · cases hrec : findClose cs (d - 1) with
          | none => rw [hrec] at h; exact Option.noConfusion h
          | some p =>
            rw [hrec] at h
            cases h
            exact Nat.lt_succ_of_lt (ih _ p.1 p.2 (by rw [hrec]))
      · cases hrec : findClose cs d with
        | none => rw [hrec] at h; exact Option.noConfusion h
        | some p =>
          rw [hrec] at h
          cases h
          exact Nat.lt_succ_of_lt (ih _ p.1 p.2 (by rw [hrec]))

/-- `tokenize(template)`: `acc` holds the pending literal characters in
reverse (the source tracks `literalStart`).  The recursion is structural on
a fuel that the wrapper sets to the template length; every step consumes
one unit of fuel and at least one character, so the zero-fuel floor (which
would return `[]`) is unreachable. -/
def tokenizeGo : Nat → List Char → List Char → List Token
  | _, [], acc => if acc = [] then [] else [.literal (String.mk acc.reverse)]
  | 0, _ :: _, _ => []
  | fuel + 1, c :: rest, acc =>
    if c = '{' then
      let lit : List Token := if acc = [] then [] else [.literal (String.mk acc.reverse)]
      match findClose rest 0 with
      | none => lit ++ [.literal (String.mk (c :: rest))]
      | some (content, rest') =>
          lit ++ (parseVariable (String.mk content) :: tokenizeGo fuel rest' [])
    else tokenizeGo fuel rest (c :: acc)

def tokenize (template : String) : List Token :=
  tokenizeGo template.length template.data []

/-- `result.join('')` -/
def joinAll (l : List String) : String :=
  l.foldl (· ++ ·) ""

/-- `interpolate(template, metadata)`: token evaluation, with the
conditional-subtemplate recursion driven by a structural fuel.  The wrapper
passes `(length + 1)²`, which always suffices: the evaluation consumes one
unit per token and per conditional descent, each conditional's inner
template is strictly shorter than the template enclosing it, and a
template of length `L` yields at most `L` tokens.  The zero-fuel floor
(`none` on a non-empty token list) is unreachable. -/
def evalTokensF (md : List (String × JVal)) : Nat → List Token → Option (List String)
  | _, [] => some []
  | 0, _ :: _ => none
  | fuel + 1, t :: ts =>
    match t with
    | .literal v => (evalTokensF md fuel ts).map (v :: ·)
    | .varTok f fmt =>
        let value := getNestedValue (.vobj md) f
        if value.isMissing then none
        else
          let formatted := match fmt with
            | some fm => applyFormat value fm
            | none => jsToString value
          (evalTokensF md fuel ts).map (formatted :: ·)
    | .optionalTok f fmt =>
        let value := getNestedValue (.vobj md) f
        if value.isMissing then evalTokensF md fuel ts
        else
          let formatted := match fmt with
            | some fm => applyFormat value fm
            | none => jsToString value
          (evalTokensF md fuel ts).map (formatted :: ·)
    | .conditional f inner =>
        let value := getNestedValue (.vobj md) f
        if value.isMissing then evalTokensF md fuel ts
        else
          match (evalTokensF md fuel (tokenize inner)).map joinAll with
          | some innerResult => (evalTokensF md fuel ts).map (innerResult :: ·)
          | none => evalTokensF md fuel ts
    | .defaultTok f dv =>
        let value := getNestedValue (.vobj md) f
        if ¬ value.isMissing then
          (evalTokensF md fuel ts).map (jsToString value :: ·)
        else if isFieldNameStr dv then
          let fallbackValue := getNestedValue (.vobj md) dv
          if ¬ fallbackValue.isMissing then
            (evalTokensF md fuel ts).map (jsToString fallbackValue :: ·)
          else none
        else
          (evalTokensF md fuel ts).map (dv :: ·)

/-- `TemplateEngine.interpolate`. -/
def interpolate (template : String) (md : List (String × JVal)) : Option String :=
  (evalTokensF md ((template.length + 1) * (template.length + 1))
    (tokenize template)).map joinAll

/-- `TemplateEngine.extractVariables` (with the dedup `Set` threaded
through as `acc`; `token.field` and `token.innerTemplate` are
truthiness-tested, so empty strings are skipped, as in the source).  Same
structural-fuel scheme as `evalTokensF`; the wrapper budget always
suffices. -/
def extractFromTokensF : Nat → List Token → List String → List String
  | _, [], acc => acc
  | 0, _ :: _, acc => acc
  | fuel + 1, t :: ts, acc =>
    match t with
    | .literal _ => extractFromTokensF fuel ts acc
    | .varTok f _ => extractFromTokensF fuel ts (if f = "" then acc else setAdd acc f)
    | .optionalTok f _ => extractFromTokensF fuel ts (if f = "" then acc else setAdd acc f)
    | .defaultTok f _ => extractFromTokensF fuel ts (if f = "" then acc else setAdd acc f)
    | .conditional f inner =>
        let acc1 := if f = "" then acc else setAdd acc f
        let acc2 := if inner = "" then acc1
          else extractFromTokensF fuel (tokenize inner) acc1
        extractFromTokensF fuel ts acc2

def extractVariables (template : String) : List String :=
  extractFromTokensF ((template.length + 1) * (template.length + 1))
    (tokenize template) []

/-! ## Condition evaluator (ConditionEvaluator.ts, RenamingRuleTypes.ts) -/

/-- A condition's `value` as written in the rule config: string, number or
boolean (numbers in JSON configs are integers in the modelled space). -/
inductive CondValue where
  | cstr (s : String)
  | cnum (n : Int)
  | cbool (b : Bool)
  deriving Repr, DecidableEq

/-- `condition.value` seen as a JavaScript value (`none` = `undefined`). -/
def condValueToJVal : Option CondValue → JVal
  | none => .vundef
  | some (.cstr s) => .vstr s
  | some (.cnum n) => .vnum (some n)
  | some (.cbool b) => .vbool b

/-- Conditions and condition groups.  `isConditionGroup` duck-types on the
presence of `operator`/`conditions`, which the inductive structure mirrors. -/
inductive CondNode where
  | leaf (ctype field : String) (value : Option CondValue)
  | grp (operator : String) (conditions : List CondNode)
  deriving Repr

/-- `ConditionEvaluator.evaluateCondition`.  `rx pattern value` abstracts
`try { new RegExp(pattern).test(value) } catch { false }`. -/
def evaluateCondition (rx : String → String → Bool) (md : List (String × JVal))
    (ctype field : String) (cvalue : Option CondValue) : Bool :=
  let value := getNestedValue (.vobj md) field
  match ctype with
  | "EXISTS" => ¬ value.isMissing
  | "NOT_EXISTS" => value.isMissing
  | "EQUALS" =>
      match cvalue with
      | some (.cbool b) =>
          -- strict `===` against a boolean
          (match value with
           | .vbool b' => b' = b
           | _ => false)
      | some (.cnum n) => jsToNumber value = some n
      | _ => jsToString value = jsToString (condValueToJVal cvalue)
  | "NOT_EQUALS" =>
      match cvalue with
      | some (.cbool b) =>
          (match value with
           | .vbool b' => ¬ b' = b
           | _ => true)
      | some (.cnum n) => ¬ jsToNumber value = some n
      | _ => ¬ jsToString value = jsToString (condValueToJVal cvalue)
  | "CONTAINS" =>
      if value.isMissing then false
      else decide ((jsToString (condValueToJVal cvalue)).data <:+: (jsToString value).data)
  | "MATCHES" =>
      if value.isMissing then false
      else rx (jsToString (condValueToJVal cvalue)) (jsToString value)
  | _ => false

mutual

/-- Dispatch of `evaluateGroup`'s recursion over `isConditionGroup`:
`evaluateCondition` for leaves; for groups, an empty member list is always
true, otherwise the members are evaluated and combined with AND/OR. -/
def evaluateCondNode (rx : String → String → Bool) (md : List (String × JVal)) :
    CondNode → Bool
  | .leaf t f v => evaluateCondition rx md t f v
  | .grp op cs =>
      if cs.length = 0 then true
      else
        let results := condResults rx md cs
        if op = "AND" then results.all id else results.any id

/-- `group.conditions.map(...)`. -/
def condResults (rx : String → String → Bool) (md : List (String × JVal)) :
    List CondNode → List Bool
  | [] => []
  | c :: rest => evaluateCondNode rx md c :: condResults rx md rest

end

/-- `ConditionEvaluator.evaluateGroup(group, metadata)` (the body of the
`grp` case of `evaluateCondNode`, on the group's operator and members). -/
def evaluateGroup (rx : String → String → Bool) (md : List (String × JVal))
    (operator : String) (conditions : List CondNode) : Bool :=
  if conditions.length = 0 then true
  else
    let results := condResults rx md conditions
    if operator = "AND" then results.all id else results.any id

/-! ## Rule model (RenamingRuleTypes.ts) -/

/-- A renaming rule.  `name`/`description` are not read by the modelled
code paths and are omitted; `conditions` is the rule's `ConditionGroup`,
split into its `operator` and `conditions` fields. -/
structure RenamingRule where
  id : String
  enabled : Bool
  priority : Int
  condOperator : String
  conditions : List CondNode
  template : String
  fallbackToUnsorted : Bool
  deriving Repr

structure RenamingConfig where
  version : Int
  rules : List RenamingRule
  defaultRule : Option RenamingRule
  lastModified : Option String
  isDefault : Option Bool
  deriving Repr

/-! ## `sanitizePath` (RenamingRule.ts) -/

/-- characters of `/[<>:"|?*]/g` -/
def isIllegalChar (c : Char) : Bool :=
  c = '<' ∨ c = '>' ∨ c = ':' ∨ c = '"' ∨ c = '|' ∨ c = '?' ∨ c = '*'

/-- `sanitizePath(newPath)`: keep a leading drive prefix `X:`, strip the
illegal characters elsewhere, then turn backslashes into slashes. -/
def sanitizePath (newPath : String) : String :=
  let cs := newPath.data
  let driveLen : Nat :=
    match cs with
    | a :: b :: _ => if a.isAlpha ∧ b = ':' then 2 else 0
    | _ => 0
  let drive := cs.take driveLen
  let pathWithoutDrive := cs.drop driveLen
  let sanitized := pathWithoutDrive.filter (fun c => ¬ isIllegalChar c)
  let clean := drive ++ sanitized
  String.mk (clean.map (fun c => if c = '\\' then '/' else c))

/-! ## Node `path` (posix) helpers used by VirtualFileSystem.ts -/

/-- Node `path.posix.dirname` on the character list: scan from the end
skipping trailing slashes, then cut at the next slash (index 0 is never
examined). -/
def dirnameCs (cs : List Char) : List Char :=
  if cs = [] then ['.']
  else
    let hasRoot := cs.head? = some '/'
    let rcs := (cs.drop 1).reverse
    let r1 := rcs.dropWhile (fun c => c = '/')
    let r2 := r1.dropWhile (fun c => ¬ c = '/')
    match r2 with
    | [] => if hasRoot then ['/'] else ['.']
    | _ :: tail =>
        if hasRoot ∧ tail = [] then ['/', '/']
        else cs.take 1 ++ tail.reverse

/-- Node `path.posix.dirname`. -/
def dirname (p : String) : String :=
  String.mk (dirnameCs p.data)

/-- Node `path.posix.basename` (no extension argument). -/
def basename (p : String) : String :=
  let rs := p.data.reverse.dropWhile (fun c => c = '/')
  String.mk ((rs.takeWhile (fun c => ¬ c = '/')).reverse)

/-- Node `path.posix.extname`: empty unless the basename has a `.` at a
position other than its start (`.bashrc`, `.`, `..` have none); otherwise
the suffix from the last `.`. -/
def extname (p : String) : String :=
  let b := (basename p).data
  if b = ['.'] ∨ b = ['.', '.'] then ""
  else
    let pre := b.reverse.dropWhile (fun c => ¬ c = '.')
    match pre with
    | [] => ""
    | _ :: [] => ""
    | _ => String.mk (b.drop (pre.length - 1))

/-- `VirtualFileSystem.normalizePath` on the character list: prepend `/`
when missing (`cs1`), strip one trailing `/` except at the root (on POSIX,
`path.sep = '/'` makes the split/join step the identity). -/
def normalizeCs1 (cs1 : List Char) : List Char :=
  if cs1 ≠ ['/'] ∧ cs1.getLast? = some '/' then cs1.dropLast else cs1

def normalizeCs (cs : List Char) : List Char :=
  normalizeCs1 (if cs.head? = some '/' then cs else '/' :: cs)

/-- `VirtualFileSystem.normalizePath`. -/
def normalizePath (p : String) : String :=
  String.mk (normalizeCs p.data)

/-! ## `FileMetadata` (RedisClient.ts) and
`flatPropertiesToMetadata` (VirtualFileSystem.ts) -/

/-- The `FileMetadata` record as produced by `flatPropertiesToMetadata`
(`titles` can only carry an `eng` entry there, kept as `titlesEng`).
Numeric fields are `Option Int` with `none` = `NaN`; optional numeric fields
are `Option (Option Int)` with outer `none` = `undefined`. -/
structure FileMetadata where
  sourcePath : String
  originalPath : String
  size : Option Int
  mtime : Option Int
  ctime : Option Int
  hashId : String
  title : Option String
  titlesEng : Option String
  originalTitle : Option String
  fileName : Option String
  season : Option (Option Int)
  episode : Option (Option Int)
  extra : Bool
  movieYear : Option (Option Int)
  year : Option (Option Int)
  fileType : Option String
  extension : Option String
  version : Option String
  subtitleLanguage : Option String
  deriving Repr, DecidableEq

def optStr : Option String → JVal
  | some s => .vstr s
  | none => .vundef

def optNum : Option (Option Int) → JVal
  | none => .vundef
  | some n => .vnum n

/-- The metadata record viewed as the JavaScript object handed to the
template engine and condition evaluator (`metadata as Record<string, unknown>`). -/
def FileMetadata.toJsObj (m : FileMetadata) : List (String × JVal) :=
  [ ("sourcePath", .vstr m.sourcePath),
    ("originalPath", .vstr m.originalPath),
    ("size", .vnum m.size),
    ("mtime", .vnum m.mtime),
    ("ctime", .vnum m.ctime),
    ("hashId", .vstr m.hashId),
    ("title", optStr m.title),
    ("titles", match m.titlesEng with
               | some s => .vobj [("eng", .vstr s)]
               | none => .vundef),
    ("originalTitle", optStr m.originalTitle),
    ("fileName", optStr m.fileName),
    ("season", optNum m.season),
    ("episode", optNum m.episode),
    ("extra", .vbool m.extra),
    ("movieYear", optNum m.movieYear),
    ("year", optNum m.year),
    ("fileType", optStr m.fileType),
    ("extension", optStr m.extension),
    ("version", optStr m.version),
    ("subtitleLanguage", optStr m.subtitleLanguage) ]

def videoExts : List String := ["mkv", "mp4", "avi", "mov", "wmv", "flv", "webm", "m4v"]
def subtitleExts : List String := ["srt", "ass", "ssa", "sub", "idx", "vtt"]
def torrentExts : List String := ["torrent"]

/-- `VirtualFileSystem.flatPropertiesToMetadata(props, hashId)`
(`filesPath` is `this.config.filesPath`). -/
def flatPropertiesToMetadata (filesPath : String) (props : List (String × String))
    (hashId : String) : FileMetadata :=
  let originalPath := (mapLookup props "filePath").getD ""
  let sourcePath :=
    if originalPath ≠ "" ∧ ¬ strStartsWith originalPath "/" then
      filesPath ++ "/" ++ originalPath
    else if ¬ strStartsWith originalPath filesPath ∧ strStartsWith originalPath "/" then
      filesPath ++ originalPath
    else originalPath
  let pathFileName : Option String :=
    if sourcePath ≠ "" then some (basename sourcePath) else none
  let fileName := match mapLookup props "fileName" with
    | some s => some s
    | none => pathFileName
  let extension := match mapLookup props "extension" with
    | some s => some s
    | none => pathFileName.map (fun f => (extname f).drop 1)
  let size := jsParseInt ((mapLookup props "fileSize").getD
    ((mapLookup props "size").getD ((mapLookup props "sizeByte").getD "0")))
  let mtime : Option Int :=
    match mapLookup props "mtime" with
    | some s =>
        if s ≠ "" then
          match jsDateParse s with
          | some t => some t
          | none => jsParseFloat s
        else some 0
    | none => some 0
  let titlesEng : Option String :=
    match mapLookup props "titles/eng" with
    | some s => if s ≠ "" then some s else none
    | none => none
  let season := (mapLookup props "season").map jsParseInt
  let episode := (mapLookup props "episode").map jsParseInt
  let movieYear : Option (Option Int) :=
    match mapLookup props "movieYear" with
    | some s => if s ≠ "" then some (jsParseInt s) else none
    | none => none
  let year : Option (Option Int) :=
    match mapLookup props "year" with
    | some s => if s ≠ "" then some (jsParseInt s) else movieYear
    | none => movieYear
  let fileType0 := mapLookup props "fileType"
  let fileType :=
    if ((match fileType0 with | some s => decide (s = "") | none => true) &&
        (match extension with | some e => decide (e ≠ "") | none => false)) then
      let e := jsToLower (extension.getD "")
      if e ∈ videoExts then some "video"
      else if e ∈ subtitleExts then some "subtitle"
      else if e ∈ torrentExts then some "torrent"
      else fileType0
    else fileType0
  { sourcePath := sourcePath
    originalPath := originalPath
    size := size
    mtime := mtime
    ctime := match mapLookup props "ctime" with
      | some s => if s ≠ "" then jsParseFloat s else mtime
      | none => mtime
    hashId := hashId
    title := mapLookup props "title"
    titlesEng := titlesEng
    originalTitle := mapLookup props "originalTitle"
    fileName := fileName
    season := season
    episode := episode
    extra := decide ((mapLookup props "extra") = some "true")
    movieYear := movieYear
    year := year
    fileType := fileType
    extension := extension
    version := mapLookup props "version"
    subtitleLanguage := mapLookup props "subtitleLanguage" }

/-! ## `computeVirtualPath` (VirtualFileSystem.ts) -/

/-- Stable insertion of `x` into a sorted list: `x` goes in front of the
first element it is `le`-before-or-equal to. -/
def insertStable (le : RenamingRule → RenamingRule → Bool) (x : RenamingRule) :
    List RenamingRule → List RenamingRule
  | [] => [x]
  | y :: ys => if le x y then x :: y :: ys else y :: insertStable le x ys

/-- Stable insertion sort. -/
def sortStable (le : RenamingRule → RenamingRule → Bool) :
    List RenamingRule → List RenamingRule
  | [] => []
  | x :: xs => insertStable le x (sortStable le xs)

/-- JS `Array.prototype.sort` with comparator
`(a, b) => b.priority - a.priority`: a stable descending sort by priority.
`Array.prototype.sort` is specified stable, and a stable sort for a total
transitive comparator is unique, so stable insertion sort agrees with the
engine's sort. -/
def sortRulesJs (rules : List RenamingRule) : List RenamingRule :=
  sortStable (fun a b => decide (b.priority ≤ a.priority)) (rules.filter (·.enabled))

/-- The `for (const rule of sortedRules)` loop of `computeVirtualPath`. -/
def applyRulesLoop (rx : String → String → Bool) (mdObj : List (String × JVal))
    (unsorted : String) : List RenamingRule → Option String
  | [] => none
  | rule :: rest =>
    if evaluateGroup rx mdObj rule.condOperator rule.conditions then
      match interpolate rule.template mdObj with
      | some result =>
          if result ≠ "" then some (sanitizePath result)
          else if rule.fallbackToUnsorted then some unsorted
          else applyRulesLoop rx mdObj unsorted rest
      | none =>
          if rule.fallbackToUnsorted then some unsorted
          else applyRulesLoop rx mdObj unsorted rest
    else applyRulesLoop rx mdObj unsorted rest

/-- `VirtualFileSystem.computeVirtualPath(metadata, sourcePath)`.  In
streaming mode the rules config is loaded before every use
(`onFileComplete` calls `loadRulesConfig` first and `getRulesConfig` never
returns null), so the legacy `!this.rulesConfig` branch is not modelled and
the config is an explicit argument. -/
def computeVirtualPath (rx : String → String → Bool) (rcfg : RenamingConfig)
    (metadata : FileMetadata) (sourcePath : String) : String :=
  let mdObj := metadata.toJsObj
  let filename := strOr metadata.fileName
    (strOr (some ((jsSplitChar '/' sourcePath).getLastD "")) "unknown")
  let unsorted := "Unsorted/" ++ filename
  match applyRulesLoop rx mdObj unsorted (sortRulesJs rcfg.rules) with
  | some p => p
  | none =>
    match rcfg.defaultRule with
    | some dr =>
      match interpolate dr.template mdObj with
      | some result => if result ≠ "" then sanitizePath result else unsorted
      | none => unsorted
    | none => unsorted

/-! ## Spec-side rule selection (C4; wording of §4.4 "Selection")

These definitions follow the specification's words — "iterate rules in
descending `priority` (stable by position), skipping `enabled=false`; …
first rule whose conditions evaluate true and whose template interpolates
acceptably" — and are compared against `computeVirtualPath`.  `accept` is
the acceptance test on an interpolation result: the claim's literal
reading is `Option.isSome` ("non-null"), the code's is `truthyStr`
(non-null and non-empty). -/

/-- Generic stable insertion (spec side). -/
def insertStableG (le : α → α → Bool) (x : α) : List α → List α
  | [] => [x]
  | y :: ys => if le x y then x :: y :: ys else y :: insertStableG le x ys

/-- Generic stable insertion sort (spec side). -/
def sortStableG (le : α → α → Bool) : List α → List α
  | [] => []
  | x :: xs => insertStableG le x (sortStableG le xs)

/-- Pair each rule with its position in the config's list. -/
def specEnum : Nat → List RenamingRule → List (Nat × RenamingRule)
  | _, [] => []
  | n, x :: xs => (n, x) :: specEnum (n + 1) xs

/-- "Descending priority, ties broken by position": `a` before `b`. -/
def leIdx (a b : Nat × RenamingRule) : Bool :=
  decide (b.2.priority < a.2.priority) ||
    (decide (a.2.priority = b.2.priority) && decide (a.1 < b.1))

/-- The iteration order of §4.4: enabled rules, sorted by descending
priority with ties broken by original position. -/
def specOrderedRules (rules : List RenamingRule) : List RenamingRule :=
  (sortStableG leIdx ((specEnum 0 rules).filter (fun p => p.2.enabled))).map
    (fun p => p.2)

/-- JavaScript truthiness of an interpolation result. -/
def truthyStr : Option String → Bool
  | some s => decide (s ≠ "")
  | none => false

/-- Spec-side selection over the ordered rules: the first rule whose
conditions hold and whose interpolation is accepted (or which has
`fallbackToUnsorted` set) decides the result. -/
def specPick (accept : Option String → Bool) (rx : String → String → Bool)
    (mdObj : List (String × JVal)) (unsorted : String)
    (ordered : List RenamingRule) : Option String :=
  match ordered.find? (fun r =>
      evaluateGroup rx mdObj r.condOperator r.conditions &&
        (accept (interpolate r.template mdObj) || r.fallbackToUnsorted)) with
  | some r =>
      if accept (interpolate r.template mdObj) then
        some (sanitizePath ((interpolate r.template mdObj).getD ""))
      else some unsorted
  | none => none

/-- Spec-side `computeVirtualPath` (§4.4), parametric in the acceptance
test on interpolation results. -/
def computeVirtualPathSpec (accept : Option String → Bool)
    (rx : String → String → Bool) (rcfg : RenamingConfig)
    (metadata : FileMetadata) (sourcePath : String) : String :=
  let mdObj := metadata.toJsObj
  let filename := strOr metadata.fileName
    (strOr (some ((jsSplitChar '/' sourcePath).getLastD "")) "unknown")
  let unsorted := "Unsorted/" ++ filename
  match specPick accept rx mdObj unsorted (specOrderedRules rcfg.rules) with
  | some p => p
  | none =>
    match rcfg.defaultRule with
    | some dr =>
        if accept (interpolate dr.template mdObj) then
          sanitizePath ((interpolate dr.template mdObj).getD "")
        else unsorted
    | none => unsorted

/-! ## Rules property extractor (RulesPropertyExtractor.ts) -/

/-- `CORE_PROPERTIES` (a `Set` literal of seven names). -/
def CORE_PROPERTIES : List String :=
  ["filePath", "size", "fileSize", "mtime", "ctime", "fileName", "extension"]

mutual

/-- `extractConditionFields(conditionOrGroup)`. -/
def extractConditionFields : CondNode → List String
  | .leaf _ f _ => [f]
  | .grp _ cs => extractConditionFieldsList cs

/-- The concatenated fields of a group's member list. -/
def extractConditionFieldsList : List CondNode → List String
  | [] => []
  | c :: rest => extractConditionFields c ++ extractConditionFieldsList rest

end

/-- `extractRuleProperties(rule, templateEngine)`: template variables, then
condition fields (the rule's `conditions` is the group whose members are
`rule.conditions` here). -/
def extractRuleProperties (rule : RenamingRule) : List String :=
  extractVariables rule.template ++ extractConditionFieldsList rule.conditions

/-- `normalizePropertyPath`: `path.replace(/\//g, '.')`. -/
def normalizePropertyPath (path : String) : String :=
  String.mk (path.data.map (fun c => if c = '/' then '.' else c))

/-- `RulesPropertyExtractor.extractVfsProperties(config)`: core properties,
then the normalized properties of every enabled rule, then the default
rule's. -/
def extractVfsProperties (config : RenamingConfig) : List String :=
  let properties := config.rules.foldl
    (fun acc rule =>
      if ¬ rule.enabled then acc
      else (extractRuleProperties rule).foldl
        (fun a p => setAdd a (normalizePropertyPath p)) acc)
    CORE_PROPERTIES
  match config.defaultRule with
  | some dr => (extractRuleProperties dr).foldl
      (fun a p => setAdd a (normalizePropertyPath p)) properties
  | none => properties

/-- `isVfsRelevantProperty(property, vfsProperties)`. -/
def isVfsRelevantProperty (property : String) (vfsProperties : List String) : Bool :=
  let normalized := normalizePropertyPath property
  if normalized ∈ vfsProperties then true
  else
    vfsProperties.any (fun vfsProp =>
      let normalizedVfsProp := normalizePropertyPath vfsProp
      strStartsWith normalized (normalizedVfsProp ++ ".") ||
      strStartsWith normalizedVfsProp (normalized ++ "."))

/-! ## Spec-side property relevance (C5; wording of §5 "Relevance check")

`specRelevanceMember` follows the specification's description of the
relevance set: the seven core properties, the template variables and
condition fields of every enabled rule, and the `defaultRule`'s; and
`specRelevant` its matching clause: exact normalized match, or
dotted-prefix ancestor/descendant of a set member. -/

def specRelevanceMember (cfg : RenamingConfig) (m : String) : Prop :=
  m ∈ CORE_PROPERTIES ∨
  (∃ r ∈ cfg.rules, r.enabled = true ∧
    (m ∈ extractVariables r.template ∨ m ∈ extractConditionFieldsList r.conditions)) ∨
  (∃ dr, cfg.defaultRule = some dr ∧
    (m ∈ extractVariables dr.template ∨ m ∈ extractConditionFieldsList dr.conditions))

def specRelevant (cfg : RenamingConfig) (prop : String) : Prop :=
  ∃ m, specRelevanceMember cfg m ∧
    (normalizePropertyPath prop = normalizePropertyPath m ∨
     strStartsWith (normalizePropertyPath prop)
       (normalizePropertyPath m ++ ".") = true ∨
     strStartsWith (normalizePropertyPath m)
       (normalizePropertyPath prop ++ ".") = true)

/-! ## The VFS projection state (VirtualFileSystem.ts, streaming mode) -/

inductive NodeType where
  | file
  | directory
  deriving Repr, DecidableEq

/-- `VFSNode`. -/
structure VFSNode where
  ntype : NodeType
  name : String
  parent : Option String
  sourcePath : Option String := none
  size : Option Int := none
  mtime : Option Int := none
  ctime : Option Int := none
  metadata : Option FileMetadata := none
  children : Option (List String) := none
  deriving Repr, DecidableEq

/-- The mutable fields of `VirtualFileSystem`: the node map, the two
path indices, and `cachedStats` (with `lastRefresh` as epoch ms). -/
structure VfsState where
  nodes : List (String × VFSNode)
  sourcePathToVirtualPath : List (String × String)
  hashIdToVirtualPath : List (String × String)
  fileCount : Int
  directoryCount : Int
  totalSize : Int
  lastRefresh : Option Int
  deriving Repr, DecidableEq

/-- `initRoot()`. -/
def initialVfs : VfsState :=
  { nodes := [("/", { ntype := .directory, name := "", parent := none,
                      children := some [] })]
    sourcePathToVirtualPath := []
    hashIdToVirtualPath := []
    fileCount := 0
    directoryCount := 1
    totalSize := 0
    lastRefresh := none }

/-! Length facts about `dirnameCs`/`normalizeCs`, for the termination of
`ensureDirectory`. -/

theorem strData_inj {s t : String} (h : s.data = t.data) : s = t := by
  cases s
  cases t
  exact congrArg String.mk h

theorem dropWhile_head_false (P : Char → Bool) :
    ∀ (l : List Char) (x : Char) (xs : List Char),
      l.dropWhile P = x :: xs → P x = false := by
  intro l
  induction l with
  | nil => intro x xs h; simp [List.dropWhile] at h
  | cons a t ih =>
    intro x xs h
    rw [List.dropWhile_cons] at h
    by_cases hPa : P a = true
    · rw [if_pos hPa] at h
      exact ih x xs h
    · rw [if_neg hPa] at h
      cases h
      simpa using hPa

theorem length_dropWhile_le (P : Char → Bool) (l : List Char) :
    (l.dropWhile P).length ≤ l.length := by
  induction l with
  | nil => simp [List.dropWhile]
  | cons a t ih =>
    rw [List.dropWhile_cons]
    split
    · exact Nat.le_succ_of_le ih
    · simp

theorem normalizeCs1_head (cs1 : List Char) (h : cs1.head? = some '/') :
    (normalizeCs1 cs1).head? = some '/' := by
  unfold normalizeCs1
  split
  · rename_i hcond
    cases cs1 with
    | nil => simp at h
    | cons a t =>
      cases t with
      | nil =>
        exfalso
        apply hcond.1
        simp only [List.head?_cons, Option.some.injEq] at h
        rw [h]
      | cons b u =>
        simp only [List.head?_cons, Option.some.injEq] at h
        subst h
        simp [List.dropLast]
  · exact h

theorem normalizeCs_head (cs : List Char) :
    (normalizeCs cs).head? = some '/' := by
  unfold normalizeCs
  apply normalizeCs1_head
  split
  · assumption
  · rfl

theorem normalizeCs_length_le (cs : List Char) (h : cs.head? = some '/') :
    (normalizeCs cs).length ≤ cs.length := by
  unfold normalizeCs
  rw [if_pos h]
  unfold normalizeCs1
  split
  · rw [List.length_dropLast]
    omega
  · exact Nat.le_refl _

theorem dirnameCs_facts (cs : List Char) (h : cs.head? = some '/')
    (hne : cs ≠ ['/']) :
    (dirnameCs cs).head? = some '/' ∧ (dirnameCs cs).length < cs.length := by
  obtain ⟨a, t, rfl⟩ : ∃ a t, cs = a :: t := by
    cases cs with
    | nil => simp at h
    | cons a t => exact ⟨a, t, rfl⟩
  simp only [List.head?_cons, Option.some.injEq] at h
  subst h
  have ht : t ≠ [] := by
    intro hc
    exact hne (by rw [hc])
  have hlen1 : 1 ≤ t.length := by
    cases t with
    | nil => exact absurd rfl ht
    | cons b u => simp
  have hr1_len :
      (t.reverse.dropWhile (fun c => decide (c = '/'))).length ≤ t.length := by
    calc (t.reverse.dropWhile (fun c => decide (c = '/'))).length
        ≤ t.reverse.length := length_dropWhile_le _ _
      _ = t.length := by simp
  cases hr2c : (t.reverse.dropWhile (fun c => decide (c = '/'))).dropWhile
      (fun c => !decide (c = '/')) with
  | nil =>
    refine ⟨?_, ?_⟩
    · simp [dirnameCs, hr2c]
    · simp [dirnameCs, hr2c]
      omega
  | cons x tail =>
    have hr2_len :
        (x :: tail).length ≤ (t.reverse.dropWhile (fun c => decide (c = '/'))).length := by
      rw [← hr2c]
      exact length_dropWhile_le _ _
    by_cases htail : tail = []
    · subst htail
      -- result is "//": show t has at least two characters
      have hr1_ge2 : 2 ≤ (t.reverse.dropWhile (fun c => decide (c = '/'))).length := by
        cases hr1c : t.reverse.dropWhile (fun c => decide (c = '/')) with
        | nil =>
          exfalso
          rw [hr1c] at hr2c
          simp [List.dropWhile] at hr2c
        | cons y ys =>
          have hy : (fun c => decide (c = '/')) y = false :=
            dropWhile_head_false _ _ y ys hr1c
          cases hys : ys with
          | nil =>
            exfalso
            rw [hr1c, hys] at hr2c
            rw [List.dropWhile_cons] at hr2c
            rw [if_pos (by simpa using hy)] at hr2c
            simp [List.dropWhile] at hr2c
          | cons z zs => simp [hr1c, hys]
      refine ⟨?_, ?_⟩
      · simp [dirnameCs, hr2c]
      · simp [dirnameCs, hr2c]
        omega
    · refine ⟨?_, ?_⟩
      · simp [dirnameCs, hr2c, htail]
      · simp [dirnameCs, hr2c, htail]
        have h1 : tail.length + 1 = (x :: tail).length := rfl
        omega

theorem normalizePath_length_lt_of_ne_root (q : String)
    (hhead : q.data.head? = some '/') (hne : q.data ≠ ['/']) :
    (normalizePath (dirname q)).length < q.length := by
  have h1 := dirnameCs_facts q.data hhead hne
  have h2 : (normalizeCs (dirnameCs q.data)).length ≤ (dirnameCs q.data).length :=
    normalizeCs_length_le _ h1.1
  show (normalizeCs (dirnameCs q.data)).length < q.data.length
  omega

/-! ## VFS tree mutations (VirtualFileSystem.ts) -/

theorem mapHas_of_lookup (m : List (String × β)) (k : String) (v : β)
    (h : mapLookup m k = some v) : mapHas m k = true := by
  induction m with
  | nil => simp [mapLookup] at h
  | cons e es ih =>
    by_cases he : e.1 = k
    · simp [mapHas, he]
    · rw [mapLookup, if_neg he] at h
      simp [mapHas, he, ih h]

theorem length_mapReplace (m : List (String × β)) (k : String) (v : β) :
    (mapReplace k v m).length = m.length := by
  induction m with
  | nil => rfl
  | cons e es ih => simp [mapReplace, ih]

/-- Shared shape of the parent-children update in `removeFile` and
`cleanEmptyDirectories`:
`if (node.parent) { const parentNode = this.nodes.get(node.parent);
  if (parentNode && parentNode.type === 'directory')
    parentNode.children!.delete(name); }`. -/
def cleanParentChildren (nodes : List (String × VFSNode)) (parentOpt : Option String)
    (name : String) : List (String × VFSNode) :=
  match parentOpt with
  | some pp =>
    if pp ≠ "" then
      match mapLookup nodes pp with
      | some parentNode =>
          if parentNode.ntype = .directory then
            mapSet nodes pp
              { parentNode with
                children := some (setDelete (parentNode.children.getD []) name) }
          else nodes
      | none => nodes
    else nodes
  | none => nodes

theorem mapHas_cleanParentChildren (nodes : List (String × VFSNode))
    (po : Option String) (name k : String) (h : mapHas nodes k = true) :
    mapHas (cleanParentChildren nodes po name) k = true := by
  cases po with
  | none => simpa [cleanParentChildren] using h
  | some pp =>
    by_cases hpp : pp = ""
    · simp [cleanParentChildren, hpp, h]
    · cases hl : mapLookup nodes pp with
      | none => simp [cleanParentChildren, hpp, hl, h]
      | some parentNode =>
        by_cases hd : parentNode.ntype = NodeType.directory
        · simp only [cleanParentChildren, if_neg (by simpa using hpp), hl, if_pos hd,
            ne_eq, hpp, not_false_eq_true, if_true]
          exact mapHas_set _ _ _ _ h
        · simp [cleanParentChildren, hpp, hl, hd, h]

theorem length_cleanParentChildren (nodes : List (String × VFSNode))
    (po : Option String) (name : String) :
    (cleanParentChildren nodes po name).length = nodes.length := by
  cases po with
  | none => rfl
  | some pp =>
    by_cases hpp : pp = ""
    · simp [cleanParentChildren, hpp]
    · cases hl : mapLookup nodes pp with
      | none => simp [cleanParentChildren, hpp, hl]
      | some parentNode =>
        by_cases hd : parentNode.ntype = NodeType.directory
        · simp only [cleanParentChildren, hl, if_pos hd, ne_eq, hpp,
            not_false_eq_true, if_true]
          unfold mapSet
          rw [if_pos (mapHas_of_lookup _ _ _ hl)]
          exact length_mapReplace _ _ _
        · simp [cleanParentChildren, hpp, hl, hd]

/-- `ensureDirectory(dirPath)`.  Structural fuel: each recursion step
strictly decreases `(normalizePath dirPath).length`
(`normalizePath_length_lt_of_ne_root`), so the budget passed by
`addFileSync` always suffices and the zero-fuel floor is unreachable. -/
def ensureDirectory : Nat → VfsState → String → VfsState
  | 0, s, _ => s
  | fuel + 1, s, dirPath0 =>
    let dirPath := normalizePath dirPath0
    if dirPath = "/" ∨ (mapLookup s.nodes dirPath).isSome then s
    else
      let parentPath := dirname dirPath
      let s' := ensureDirectory fuel s parentPath
      let dirName := basename dirPath
      let newDir : VFSNode :=
        { ntype := .directory, name := dirName, parent := some parentPath,
          children := some [] }
      let s2 := { s' with nodes := mapSet s'.nodes dirPath newDir }
      let s3 :=
        match mapLookup s2.nodes parentPath with
        | some parentNode =>
            if parentNode.ntype = NodeType.directory then
              let parentNode2 : VFSNode :=
                { parentNode with
                  children := some (setAdd (parentNode.children.getD []) dirName) }
              { s2 with nodes := mapSet s2.nodes parentPath parentNode2 }
            else s2
        | none => s2
      { s3 with directoryCount := s3.directoryCount + 1 }

/-- `cleanEmptyDirectories(dirPath)`.  Structural fuel: each recursion
step deletes the present node `p`, strictly decreasing `s.nodes.length`,
so the budget passed by `removeFile` always suffices and the zero-fuel
floor is unreachable. -/
def cleanEmptyDirectories : Nat → VfsState → Option String → VfsState
  | 0, s, _ => s
  | fuel + 1, s, dirPath =>
    match dirPath with
    | none => s
    | some p =>
      if p = "" ∨ p = "/" then s
      else
        match mapLookup s.nodes p with
        | none => s
        | some node =>
          if node.ntype ≠ .directory then s
          else if (node.children.getD []).length = 0 then
            let nodes2 := mapDelete (cleanParentChildren s.nodes node.parent node.name) p
            let s2 : VfsState :=
              { s with nodes := nodes2, directoryCount := s.directoryCount - 1 }
            cleanEmptyDirectories fuel s2 node.parent
          else s

/-- `removeFile(virtualPath)`. -/
def removeFile (s : VfsState) (virtualPath : String) : VfsState :=
  let nv := normalizePath virtualPath
  match mapLookup s.nodes nv with
  | none => s
  | some node =>
    if node.ntype ≠ .file then s
    else
      let s1 := { s with nodes := cleanParentChildren s.nodes node.parent node.name }
      let s2 :=
        { s1 with fileCount := s1.fileCount - 1,
                  totalSize := s1.totalSize - (node.size.getD 0) }
      let s3 := { s2 with nodes := mapDelete s2.nodes nv }
      let s4 :=
        match node.sourcePath with
        | some sp =>
            if sp ≠ "" then
              { s3 with sourcePathToVirtualPath := mapDelete s3.sourcePathToVirtualPath sp }
            else s3
        | none => s3
      cleanEmptyDirectories (s4.nodes.length + 1) s4 node.parent

/-- `addFileSync(virtualPath, metadata)` (`now` is `Date.now()` in ms). -/
def addFileSync (s : VfsState) (virtualPath : String) (metadata : FileMetadata)
    (now : Int) : VfsState :=
  let nv := normalizePath virtualPath
  let s0 :=
    match mapLookup s.nodes nv with
    | some node =>
        if node.ntype = .file then
          { s with totalSize := s.totalSize - (node.size.getD 0),
                   fileCount := s.fileCount - 1 }
        else s
    | none => s
  let dirnm := dirname nv
  let s1 := ensureDirectory ((normalizePath dirnm).length + 1) s0 dirnm
  let size := numOr metadata.size 0
  let mtime := numOr metadata.mtime now
  let ctime := numOr metadata.ctime (numOr metadata.mtime now)
  let filename := basename nv
  let fileNode : VFSNode :=
    { ntype := .file, name := filename, parent := some dirnm,
      sourcePath := some metadata.sourcePath, size := some size,
      mtime := some mtime, ctime := some ctime, metadata := some metadata }
  let s2 := { s1 with nodes := mapSet s1.nodes nv fileNode }
  let s3 :=
    match mapLookup s2.nodes dirnm with
    | some parentNode =>
        if parentNode.ntype = NodeType.directory then
          let parentNode2 : VFSNode :=
            { parentNode with
              children := some (setAdd (parentNode.children.getD []) filename) }
          { s2 with nodes := mapSet s2.nodes dirnm parentNode2 }
        else s2
    | none => s2
  { s3 with fileCount := s3.fileCount + 1, totalSize := s3.totalSize + size }

/-- `VirtualFileSystem.onFileComplete(hashId, metadata)` (the rules config is
loaded on entry when absent; it is an explicit argument here). -/
def vfsOnFileComplete (rx : String → String → Bool) (rcfg : RenamingConfig)
    (filesPath : String) (now : Int) (hashId : String)
    (props : List (String × String)) (s : VfsState) : VfsState :=
  let fileMetadata := flatPropertiesToMetadata filesPath props hashId
  if fileMetadata.sourcePath = "" then s
  else
    let virtualPath := computeVirtualPath rx rcfg fileMetadata fileMetadata.sourcePath
    if virtualPath = "" then s
    else
      let s1 :=
        match mapLookup s.hashIdToVirtualPath hashId with
        | some oldVirtualPath =>
            if oldVirtualPath ≠ "" ∧ oldVirtualPath ≠ virtualPath then
              removeFile s oldVirtualPath
            else s
        | none => s
      let s2 := addFileSync s1 virtualPath fileMetadata now
      { s2 with
        sourcePathToVirtualPath :=
          mapSet s2.sourcePathToVirtualPath fileMetadata.sourcePath virtualPath,
        hashIdToVirtualPath := mapSet s2.hashIdToVirtualPath hashId virtualPath,
        lastRefresh := some now }

/-- `VirtualFileSystem.onFileDelete(hashId)`. -/
def vfsOnFileDelete (hashId : String) (s : VfsState) : VfsState :=
  match mapLookup s.hashIdToVirtualPath hashId with
  | some virtualPath =>
      if virtualPath ≠ "" then
        let s1 := removeFile s virtualPath
        { s1 with hashIdToVirtualPath := mapDelete s1.hashIdToVirtualPath hashId }
      else s
  | none => s

/-! ## Streaming state builder (StreamingStateBuilder.ts)

The builder's VFS callback is the `VirtualFileSystem` in the deployed
wiring; each emitted callback is both recorded in the returned trace and
applied to the projection state.  The `await redisClient.getProperty(...)`
result is passed in as `fetched` (the store read). -/

structure BuilderState where
  filesState : List (String × List (String × String))
  eventsProcessed : Int
  propertiesFetched : Int
  propertiesSkipped : Int
  filesComplete : Int
  lastEventId : String
  deriving Repr, DecidableEq

/-- The callbacks of `VFSUpdateCallback`, as trace events. -/
inductive CbEvent where
  | propertyChange (hashId property value : String)
  | propertyDelete (hashId property : String)
  | fileDelete (hashId : String)
  | fileComplete (hashId : String) (metadata : List (String × String))
  deriving Repr, DecidableEq

structure SysState where
  builder : BuilderState
  vfs : VfsState
  deriving Repr, DecidableEq

/-- `isFileComplete(hashId)`: the property map contains `filePath`. -/
def isFileComplete (b : BuilderState) (hashId : String) : Bool :=
  match mapLookup b.filesState hashId with
  | some fileState => mapHas fileState "filePath"
  | none => false

/-- `updateProperty(hashId, property, value)`. -/
def updateProperty (b : BuilderState) (hashId property value : String) :
    BuilderState :=
  let fileState := (mapLookup b.filesState hashId).getD []
  { b with filesState := mapSet b.filesState hashId (mapSet fileState property value) }

/-- `getFileMetadata(hashId)` (`Object.fromEntries` of the per-file map). -/
def getFileMetadata (b : BuilderState) (hashId : String) :
    Option (List (String × String)) :=
  mapLookup b.filesState hashId

/-- `StreamingStateBuilder.handlePropertySet(hashId, property)`; `fetched`
is the value returned by the store GET. -/
def handlePropertySet (relevant : List String) (rx : String → String → Bool)
    (rcfg : RenamingConfig) (filesPath : String) (now : Int)
    (fetched : Option String) (hashId property : String) (s : SysState) :
    SysState × List CbEvent :=
  if ¬ isVfsRelevantProperty property relevant then
    ({ s with builder := { s.builder with
        propertiesSkipped := s.builder.propertiesSkipped + 1 } }, [])
  else
    match fetched with
    | none => (s, [])
    | some value =>
      let b0 := { s.builder with propertiesFetched := s.builder.propertiesFetched + 1 }
      let wasComplete := isFileComplete b0 hashId
      let b1 := updateProperty b0 hashId property value
      let ev0 : List CbEvent := [.propertyChange hashId property value]
      if ¬ wasComplete ∧ isFileComplete b1 hashId then
        let b2 := { b1 with filesComplete := b1.filesComplete + 1 }
        match getFileMetadata b2 hashId with
        | some metadata =>
            ({ builder := b2,
               vfs := vfsOnFileComplete rx rcfg filesPath now hashId metadata s.vfs },
             ev0 ++ [.fileComplete hashId metadata])
        | none => ({ builder := b2, vfs := s.vfs }, ev0)
      else if wasComplete then
        match getFileMetadata b1 hashId with
        | some metadata =>
            ({ builder := b1,
               vfs := vfsOnFileComplete rx rcfg filesPath now hashId metadata s.vfs },
             ev0 ++ [.fileComplete hashId metadata])
        | none => ({ builder := b1, vfs := s.vfs }, ev0)
      else ({ builder := b1, vfs := s.vfs }, ev0)

/-- `StreamingStateBuilder.handlePropertyDelete(hashId, property)`.  The
VFS's `onPropertyDelete` callback only logs, so it leaves the projection
untouched; `onFileDelete` is `vfsOnFileDelete`. -/
def handlePropertyDelete (hashId property : String) (s : SysState) :
    SysState × List CbEvent :=
  match mapLookup s.builder.filesState hashId with
  | none => (s, [])
  | some fileState =>
    let fileState2 := mapDelete fileState property
    let st1 := mapSet s.builder.filesState hashId fileState2
    if property = "filePath" then
      ({ builder := { s.builder with filesState := mapDelete st1 hashId },
         vfs := vfsOnFileDelete hashId s.vfs }, [.fileDelete hashId])
    else if fileState2.length = 0 then
      ({ builder := { s.builder with filesState := mapDelete st1 hashId },
         vfs := vfsOnFileDelete hashId s.vfs }, [.fileDelete hashId])
    else
      ({ builder := { s.builder with filesState := st1 }, vfs := s.vfs },
       [.propertyDelete hashId property])

/-! # Verified claims -/

/-! ## Shared fixtures for concrete evaluations -/

/-- A `MATCHES` oracle that rejects everything (no rule below uses
`MATCHES`). -/
def rxNone : String → String → Bool := fun _ _ => false

/-- A rule whose template is the literal `same.mkv` (no conditions). -/
def ruleSame : RenamingRule :=
  { id := "d", enabled := true, priority := 0, condOperator := "AND",
    conditions := [], template := "same.mkv", fallbackToUnsorted := false }

/-- A config with no rules and `ruleSame` as default rule: every complete
file is placed at `same.mkv`. -/
def cfgSame : RenamingConfig :=
  { version := 1, rules := [], lastModified := none, isDefault := none,
    defaultRule := some ruleSame }

/-- A fresh builder state. -/
def builder0 : BuilderState :=
  { filesState := [], eventsProcessed := 0, propertiesFetched := 0,
    propertiesSkipped := 0, filesComplete := 0, lastEventId := "0" }

/-- A system state whose builder holds one complete file `f1` with a
`title` property. -/
def sysF1 : SysState :=
  { builder := { builder0 with
      filesState := [("f1", [("filePath", "a.mkv"), ("title", "T")])] }
    vfs := initialVfs }

/-! ## C10 — EQUALS/NOT_EQUALS with a string value on an absent field -/

/-- C10: for an `EQUALS` condition whose rule value is a string, an absent
metadata field does not automatically fail the condition: both sides are
stringified (`String(undefined) = "undefined"`), so the condition holds
exactly when the rule value is the literal string `"undefined"`; dually,
`NOT_EQUALS` holds exactly when the rule value is any other string. -/
theorem C10_equals_string_absent_field (rx : String → String → Bool)
    (md : List (String × JVal)) (field sval : String)
    (habsent : getNestedValue (.vobj md) field = JVal.vundef) :
    (evaluateCondition rx md "EQUALS" field (some (.cstr sval)) = true ↔
      sval = "undefined") ∧
    (evaluateCondition rx md "NOT_EQUALS" field (some (.cstr sval)) = true ↔
      sval ≠ "undefined") := by
  unfold evaluateCondition
  rw [habsent]
  simp only [jsToString, condValueToJVal, decide_eq_true_eq, ne_eq]
  constructor
  · exact ⟨fun h => h.symm, fun h => h.symm⟩
  · exact ⟨fun h hc => h hc.symm, fun h hc => h hc.symm⟩

/-- Witness for C10 at `md = []`, `field = "x"`, `sval = "undefined"`. -/
theorem C10_equals_string_absent_field_witness :
    getNestedValue (.vobj []) "x" = JVal.vundef ∧
    ((evaluateCondition rxNone [] "EQUALS" "x" (some (.cstr "undefined")) = true ↔
        ("undefined" : String) = "undefined") ∧
      (evaluateCondition rxNone [] "NOT_EQUALS" "x" (some (.cstr "undefined")) = true ↔
        ("undefined" : String) ≠ "undefined")) :=
  ⟨rfl, C10_equals_string_absent_field rxNone [] "x" "undefined" rfl⟩

/-! ## C7 — DataSkew: a relevant `set` whose GET returns `none` is ignored -/

/-- C7: when the property is relevant but the subsequent store GET returns
`none`, `handlePropertySet` returns with the whole system state unchanged
(in particular `filesState` and `propertiesFetched`) and emits no
callbacks. -/
theorem C7_dataskew_ignored (relevant : List String) (rx : String → String → Bool)
    (rcfg : RenamingConfig) (filesPath : String) (now : Int)
    (hashId property : String) (s : SysState)
    (hrel : isVfsRelevantProperty property relevant = true) :
    handlePropertySet relevant rx rcfg filesPath now none hashId property s = (s, []) := by
  unfold handlePropertySet
  rw [if_neg (by simp [hrel])]

/-- Witness for C7: `filePath` is always relevant (core property). -/
theorem C7_dataskew_ignored_witness :
    isVfsRelevantProperty "filePath" (extractVfsProperties cfgSame) = true ∧
    handlePropertySet (extractVfsProperties cfgSame) rxNone cfgSame "/files" 0 none
      "h" "filePath" { builder := builder0, vfs := initialVfs } =
      ({ builder := builder0, vfs := initialVfs }, []) :=
  ⟨by decide,
   C7_dataskew_ignored (extractVfsProperties cfgSame) rxNone cfgSame "/files" 0
     "h" "filePath" { builder := builder0, vfs := initialVfs } (by decide)⟩

/-! ## C2 — property deletion does not re-emit `onFileComplete` -/

/-- C2 counterexample: deleting the non-`filePath` property `title` of the
complete file `f1` leaves the file complete but emits only
`onPropertyDelete` — no `onFileComplete` follows, contradicting the claim
that the virtual path is recomputed on this property change. -/
theorem C2_counterexample :
    (handlePropertyDelete "f1" "title" sysF1).2 =
      [CbEvent.propertyDelete "f1" "title"] ∧
    isFileComplete (handlePropertyDelete "f1" "title" sysF1).1.builder "f1" = true := by
  decide

/-- C2 (amended): for a delete of a property other than `filePath` on a
file whose map does not become empty, the State Builder removes the
property and emits only `onPropertyDelete(id, prop)`; no `onFileComplete`
is emitted, so the virtual path is not recomputed on property deletion
(and the projection is untouched). -/
theorem C2_amended_delete_emits_only_property_delete (s : SysState)
    (hashId property : String) (fs : List (String × String))
    (hfs : mapLookup s.builder.filesState hashId = some fs)
    (hprop : property ≠ "filePath")
    (hne : mapDelete fs property ≠ []) :
    handlePropertyDelete hashId property s =
      ({ builder := { s.builder with
            filesState := mapSet s.builder.filesState hashId (mapDelete fs property) },
         vfs := s.vfs },
       [CbEvent.propertyDelete hashId property]) := by
  simp only [handlePropertyDelete, hfs]
  rw [if_neg hprop, if_neg (by simpa using hne)]

/-- Witness for C2 (amended) at the `sysF1` fixture. -/
theorem C2_amended_delete_emits_only_property_delete_witness :
    mapLookup sysF1.builder.filesState "f1" =
      some [("filePath", "a.mkv"), ("title", "T")] ∧
    handlePropertyDelete "f1" "title" sysF1 =
      ({ builder := { sysF1.builder with
            filesState := mapSet sysF1.builder.filesState "f1"
              (mapDelete [("filePath", "a.mkv"), ("title", "T")] "title") },
         vfs := sysF1.vfs },
       [CbEvent.propertyDelete "f1" "title"]) :=
  ⟨rfl,
   C2_amended_delete_emits_only_property_delete sysF1 "f1" "title"
     [("filePath", "a.mkv"), ("title", "T")] rfl (by decide) (by decide)⟩

/-! ## C1 — virtual-path collisions leave the prior occupant's index entry -/

/-- Two files that both compute virtual path `same.mkv`. -/
def vfsCollision : VfsState :=
  vfsOnFileComplete rxNone cfgSame "/files" 200 "b" [("filePath", "b.mkv")]
    (vfsOnFileComplete rxNone cfgSame "/files" 100 "a" [("filePath", "a.mkv")]
      initialVfs)

/-- C1 counterexample: after files `a` and `b` both map to `same.mkv`, both
remain mapped in the fileId-to-virtualPath index with the same virtual
path, refuting "their virtual paths differ or exactly one of them is
mapped"; the prior occupant `a` was not removed from the index. -/
theorem C1_counterexample :
    mapLookup vfsCollision.hashIdToVirtualPath "a" = some "same.mkv" ∧
    mapLookup vfsCollision.hashIdToVirtualPath "b" = some "same.mkv" ∧
    ("a" : String) ≠ "b" := by
  refine ⟨by decide, by decide, by decide⟩

/-! Frame lemmas: none of the tree mutations touch `hashIdToVirtualPath`. -/

theorem ensureDirectory_hashIndex (fuel : Nat) :
    ∀ (s : VfsState) (d : String),
      (ensureDirectory fuel s d).hashIdToVirtualPath = s.hashIdToVirtualPath := by
  induction fuel with
  | zero => intro s d; rfl
  | succ n ih =>
    intro s d
    simp only [ensureDirectory]
    split
    · rfl
    · split
      · split <;> simp [ih]
      · simp [ih]

theorem cleanEmptyDirectories_hashIndex (fuel : Nat) :
    ∀ (s : VfsState) (dp : Option String),
      (cleanEmptyDirectories fuel s dp).hashIdToVirtualPath = s.hashIdToVirtualPath := by
  induction fuel with
  | zero => intro s dp; rfl
  | succ n ih =>
    intro s dp
    simp only [cleanEmptyDirectories]
    split
    · rfl
    · split
      · rfl
      · split
        · rfl
        · split
          · rfl
          · split
            · rw [ih]
            · rfl

theorem removeFile_hashIndex (s : VfsState) (vp : String) :
    (removeFile s vp).hashIdToVirtualPath = s.hashIdToVirtualPath := by
  simp only [removeFile]
  split
  · rfl
  · split
    · rfl
    · rw [cleanEmptyDirectories_hashIndex]
      split
      · split <;> rfl
      · rfl

theorem addFileSync_hashIndex (s : VfsState) (v : String) (md : FileMetadata)
    (now : Int) :
    (addFileSync s v md now).hashIdToVirtualPath = s.hashIdToVirtualPath := by
  simp only [addFileSync]
  split
  · split
    · split
      · split <;> simp [ensureDirectory_hashIndex]
      · simp [ensureDirectory_hashIndex]
    · split
      · split <;> simp [ensureDirectory_hashIndex]
      · simp [ensureDirectory_hashIndex]
  · split
    · split <;> simp [ensureDirectory_hashIndex]
    · simp [ensureDirectory_hashIndex]

theorem addFileSync_lookup_self (s : VfsState) (v : String) (md : FileMetadata)
    (now : Int) :
    mapLookup (addFileSync s v md now).nodes (normalizePath v) =
      some { ntype := .file, name := basename (normalizePath v),
             parent := some (dirname (normalizePath v)),
             sourcePath := some md.sourcePath,
             size := some (numOr md.size 0),
             mtime := some (numOr md.mtime now),
             ctime := some (numOr md.ctime (numOr md.mtime now)),
             metadata := some md } := by
  simp only [addFileSync]
  split
  · rename_i parentNode heq
    split
    · rename_i hdirn
      by_cases hroot : normalizePath v = "/"
      · exfalso
        have hdr : dirname (normalizePath v) = normalizePath v := by rw [hroot]; decide
        rw [hdr, mapLookup_set_self] at heq
        injection heq with h2
        rw [← h2] at hdirn
        simp at hdirn
      · have hne2 : normalizePath v ≠ dirname (normalizePath v) := by
          intro hc
          have hhead : (normalizePath v).data.head? = some '/' := normalizeCs_head v.data
          have hnl : (normalizePath v).data ≠ ['/'] := by
            intro hd
            exact hroot (strData_inj hd)
          have hf : (dirname (normalizePath v)).length < (normalizePath v).length :=
            (dirnameCs_facts (normalizePath v).data hhead hnl).2
          rw [← hc] at hf
          exact absurd hf (lt_irrefl _)
        exact (mapLookup_set_other _ _ _ _ hne2).trans (mapLookup_set_self _ _ _)
    · exact mapLookup_set_self _ _ _
  · exact mapLookup_set_self _ _ _

/-- Metadata computed for file `b` in the collision fixture. -/
def mdColB : FileMetadata :=
  flatPropertiesToMetadata "/files" [("filePath", "b.mkv")] "b"

/-- Virtual path computed for `b` in the collision fixture. -/
def vColB : String := computeVirtualPath rxNone cfgSame mdColB mdColB.sourcePath

/-- The collision fixture after only file `a` completed. -/
def vfsA : VfsState :=
  vfsOnFileComplete rxNone cfgSame "/files" 100 "a" [("filePath", "a.mkv")]
    initialVfs

set_option maxHeartbeats 2000000 in
/-- C1 (amended): after `onFileComplete` for `hashId` computes virtual path
`v`, the index maps `hashId` to `v`, every other fileId's index entry is
unchanged (in particular a prior occupant of `v` stays mapped to it), and
the node at the normalized path is the latest writer's file node. -/
theorem C1_amended_collision_overwrites_node_keeps_index
    (rx : String → String → Bool) (rcfg : RenamingConfig) (filesPath : String)
    (now : Int) (hashId : String) (props : List (String × String))
    (s s' : VfsState) (md : FileMetadata) (v : String)
    (hmd : md = flatPropertiesToMetadata filesPath props hashId)
    (hsp : md.sourcePath ≠ "")
    (hv : v = computeVirtualPath rx rcfg md md.sourcePath)
    (hvne : v ≠ "")
    (hs' : s' = vfsOnFileComplete rx rcfg filesPath now hashId props s) :
    mapLookup s'.hashIdToVirtualPath hashId = some v ∧
    (∀ h2, h2 ≠ hashId →
      mapLookup s'.hashIdToVirtualPath h2 = mapLookup s.hashIdToVirtualPath h2) ∧
    mapLookup s'.nodes (normalizePath v) =
      some { ntype := .file, name := basename (normalizePath v),
             parent := some (dirname (normalizePath v)),
             sourcePath := some md.sourcePath,
             size := some (numOr md.size 0),
             mtime := some (numOr md.mtime now),
             ctime := some (numOr md.ctime (numOr md.mtime now)),
             metadata := some md } := by
  subst hs'
  simp only [vfsOnFileComplete, ← hmd, ← hv]
  rw [if_neg hsp, if_neg hvne]
  refine ⟨?_, ?_, ?_⟩
  · change mapLookup (mapSet _ hashId v) hashId = _
    exact mapLookup_set_self _ _ _
  · intro h2 hne
    change mapLookup (mapSet _ hashId v) h2 = _
    refine (mapLookup_set_other _ _ _ _ hne).trans ?_
    rw [addFileSync_hashIndex]
    split
    · split
      · rw [removeFile_hashIndex]
      · rfl
    · rfl
  · exact addFileSync_lookup_self _ _ _ _

/-- Witness for C1 (amended): file `b` completing over the occupied path
in the collision fixture. -/
theorem C1_amended_collision_overwrites_node_keeps_index_witness :
    (mdColB.sourcePath ≠ "" ∧ vColB ≠ "") ∧
    (mapLookup vfsCollision.hashIdToVirtualPath "b" = some vColB ∧
     (∀ h2, h2 ≠ "b" →
       mapLookup vfsCollision.hashIdToVirtualPath h2 =
         mapLookup vfsA.hashIdToVirtualPath h2) ∧
     mapLookup vfsCollision.nodes (normalizePath vColB) =
       some { ntype := .file, name := basename (normalizePath vColB),
              parent := some (dirname (normalizePath vColB)),
              sourcePath := some mdColB.sourcePath,
              size := some (numOr mdColB.size 0),
              mtime := some (numOr mdColB.mtime 200),
              ctime := some (numOr mdColB.ctime (numOr mdColB.mtime 200)),
              metadata := some mdColB }) :=
  ⟨⟨by decide, by decide⟩,
   C1_amended_collision_overwrites_node_keeps_index rxNone cfgSame "/files" 200
     "b" [("filePath", "b.mkv")] vfsA vfsCollision mdColB vColB rfl (by decide)
     rfl (by decide) rfl⟩

/-! ## C4 — rule selection (spec §4.4 vs `computeVirtualPath`) -/

theorem mem_insertStableG (le : α → α → Bool) (x y : α) :
    ∀ l, y ∈ insertStableG le x l → y = x ∨ y ∈ l := by
  intro l
  induction l with
  | nil => intro h; simpa [insertStableG] using h
  | cons z zs ih =>
    intro h
    rw [insertStableG] at h
    split at h
    · rcases List.mem_cons.mp h with h1 | h1
      · exact Or.inl h1
      · exact Or.inr h1
    · rcases List.mem_cons.mp h with h1 | h1
      · exact Or.inr (by simp [h1])
      · rcases ih h1 with h2 | h2
        · exact Or.inl h2
        · exact Or.inr (by simp [h2])

theorem mem_sortStableG (le : α → α → Bool) (y : α) :
    ∀ l, y ∈ sortStableG le l → y ∈ l := by
  intro l
  induction l with
  | nil => intro h; simp [sortStableG] at h
  | cons z zs ih =>
    intro h
    rw [sortStableG] at h
    rcases mem_insertStableG _ _ _ _ h with h1 | h1
    · simp [h1]
    · simp [ih h1]

theorem leIdx_eq_of_lt (x y : Nat × RenamingRule) (h : x.1 < y.1) :
    leIdx x y = decide (y.2.priority ≤ x.2.priority) := by
  by_cases h1 : y.2.priority ≤ x.2.priority
  · by_cases h2 : y.2.priority < x.2.priority
    · simp [leIdx, h1, h2]
    · have h3 : x.2.priority = y.2.priority := by omega
      simp [leIdx, h1, h2, h3, h]
  · have h2 : ¬ y.2.priority < x.2.priority := by omega
    have h3 : ¬ x.2.priority = y.2.priority := by omega
    simp [leIdx, h1, h2, h3]

theorem map_snd_insertStableG (x : Nat × RenamingRule) :
    ∀ m, (∀ y ∈ m, x.1 < y.1) →
      (insertStableG leIdx x m).map (fun p => p.2) =
        insertStable (fun a b => decide (b.priority ≤ a.priority)) x.2
          (m.map (fun p => p.2)) := by
  intro m
  induction m with
  | nil => intro _; rfl
  | cons z zs ih =>
    intro hall
    have hz : leIdx x z = decide (z.2.priority ≤ x.2.priority) :=
      leIdx_eq_of_lt x z (hall z (by simp))
    rw [insertStableG, List.map_cons, insertStable, hz]
    by_cases hle : z.2.priority ≤ x.2.priority
    · simp [hle]
    · simp only [hle, decide_False, Bool.false_eq_true, if_false, List.map_cons]
      rw [ih (fun y hy => hall y (by simp [hy]))]

theorem map_snd_sortStableG :
    ∀ l : List (Nat × RenamingRule),
      l.Pairwise (fun a b => a.1 < b.1) →
      (sortStableG leIdx l).map (fun p => p.2) =
        sortStable (fun a b => decide (b.priority ≤ a.priority))
          (l.map (fun p => p.2)) := by
  intro l
  induction l with
  | nil => intro _; rfl
  | cons x xs ih =>
    intro hp
    rcases List.pairwise_cons.mp hp with ⟨hx, hxs⟩
    rw [sortStableG, List.map_cons, sortStable]
    rw [map_snd_insertStableG x _ (fun y hy => hx y (mem_sortStableG _ _ _ hy))]
    rw [ih hxs]

theorem mem_specEnum_ge :
    ∀ (l : List RenamingRule) (n : Nat) (y : Nat × RenamingRule),
      y ∈ specEnum n l → n ≤ y.1 := by
  intro l
  induction l with
  | nil => intro n y h; simp [specEnum] at h
  | cons x xs ih =>
    intro n y h
    rw [specEnum] at h
    rcases List.mem_cons.mp h with h1 | h1
    · simp [h1]
    · have := ih (n + 1) y h1
      omega

theorem pairwise_specEnum :
    ∀ (l : List RenamingRule) (n : Nat),
      (specEnum n l).Pairwise (fun a b => a.1 < b.1) := by
  intro l
  induction l with
  | nil => intro n; simp [specEnum]
  | cons x xs ih =>
    intro n
    rw [specEnum]
    refine List.pairwise_cons.mpr ⟨?_, ih (n + 1)⟩
    intro y hy
    have := mem_specEnum_ge xs (n + 1) y hy
    omega

theorem map_snd_filter_specEnum :
    ∀ (l : List RenamingRule) (n : Nat),
      ((specEnum n l).filter (fun p => p.2.enabled)).map (fun p => p.2) =
        l.filter (·.enabled) := by
  intro l
  induction l with
  | nil => intro n; rfl
  | cons x xs ih =>
    intro n
    rw [specEnum, List.filter_cons, List.filter_cons]
    by_cases hx : x.enabled
    · simp only [hx, decide_True, if_true, List.map_cons, ih]
    · simp only [hx, decide_False, Bool.false_eq_true, if_false, ih]

theorem specOrderedRules_eq_sortRulesJs (rules : List RenamingRule) :
    specOrderedRules rules = sortRulesJs rules := by
  unfold specOrderedRules sortRulesJs
  rw [map_snd_sortStableG _ ((pairwise_specEnum rules 0).filter _),
    map_snd_filter_specEnum]

theorem applyRulesLoop_eq_specPick (rx : String → String → Bool)
    (mdObj : List (String × JVal)) (unsorted : String) :
    ∀ rules, applyRulesLoop rx mdObj unsorted rules =
      specPick truthyStr rx mdObj unsorted rules := by
  intro rules
  induction rules with
  | nil => rfl
  | cons r rest ih =>
    rw [applyRulesLoop, specPick, List.find?]
    by_cases hc : evaluateGroup rx mdObj r.condOperator r.conditions
    · cases hi : interpolate r.template mdObj with
      | none =>
        by_cases hf : r.fallbackToUnsorted
        · simp [hc, hi, hf, truthyStr]
        · simp [hc, hi, hf, truthyStr, ih, specPick]
      | some res =>
        by_cases hres : res = ""
        · by_cases hf : r.fallbackToUnsorted
          · simp [hc, hi, hres, hf, truthyStr]
          · simp [hc, hi, hres, hf, truthyStr, ih, specPick]
        · simp [hc, hi, hres, truthyStr]
    · simp only [Bool.not_eq_true] at hc
      simp [hc, ih, specPick]

/-- A rule with empty template: its interpolation is `some ""` — non-null
but falsy. -/
def ruleEmptyTpl : RenamingRule :=
  { id := "e", enabled := true, priority := 0, condOperator := "AND",
    conditions := [], template := "", fallbackToUnsorted := false }

/-- A config whose single enabled rule has the empty template and no
default rule. -/
def cfgEmptyTpl : RenamingConfig :=
  { version := 1, rules := [ruleEmptyTpl], lastModified := none,
    isDefault := none, defaultRule := none }

/-- The metadata of a file with only `filePath = a.mkv`. -/
def mdA : FileMetadata :=
  flatPropertiesToMetadata "/files" [("filePath", "a.mkv")] "a"

/-- C4 counterexample: under the claim's literal reading ("interpolates
non-null yields the sanitized result", `accept = Option.isSome`), a rule
whose template interpolates to the non-null empty string must yield `""`;
the code instead skips it (JavaScript truthiness) and falls through to
`Unsorted/<fileName>`. -/
theorem C4_counterexample :
    computeVirtualPathSpec Option.isSome rxNone cfgEmptyTpl mdA mdA.sourcePath
        = "" ∧
    computeVirtualPath rxNone cfgEmptyTpl mdA mdA.sourcePath
        = "Unsorted/a.mkv" ∧
    ¬ (computeVirtualPathSpec Option.isSome rxNone cfgEmptyTpl mdA mdA.sourcePath
        = computeVirtualPath rxNone cfgEmptyTpl mdA mdA.sourcePath) := by
  refine ⟨by decide, by decide, by decide⟩

/-- C4 (amended): `computeVirtualPath` equals the spec-side selection once
"interpolates non-null" is read as "interpolates to a non-empty string"
(JavaScript truthiness): enabled rules are iterated in descending priority
with ties broken by position; the first rule whose conditions hold and
whose interpolation is truthy yields the sanitized result; a rule whose
conditions hold, whose interpolation is null or empty, and whose
`fallbackToUnsorted` is set yields `Unsorted/<fileName-or-basename>`;
otherwise iteration continues; if no rule decides, the `defaultRule`'s
template is interpolated (conditions and `fallbackToUnsorted` ignored),
sanitized if truthy, else the result is `Unsorted/<fileName>`. -/
theorem C4_amended_selection_matches_spec (rx : String → String → Bool)
    (rcfg : RenamingConfig) (md : FileMetadata) (sourcePath : String) :
    computeVirtualPath rx rcfg md sourcePath =
      computeVirtualPathSpec truthyStr rx rcfg md sourcePath := by
  simp only [computeVirtualPath, computeVirtualPathSpec]
  rw [specOrderedRules_eq_sortRulesJs, ← applyRulesLoop_eq_specPick]
  cases happly : applyRulesLoop rx md.toJsObj
      ("Unsorted/" ++ strOr md.fileName
        (strOr (some ((jsSplitChar '/' sourcePath).getLastD "")) "unknown"))
      (sortRulesJs rcfg.rules) with
  | some p => rfl
  | none =>
    cases hdr : rcfg.defaultRule with
    | none => rfl
    | some dr =>
      cases hi : interpolate dr.template md.toJsObj with
      | none => simp [hi, truthyStr]
      | some res =>
        by_cases hres : res = ""
        · simp [hi, hres, truthyStr]
        · simp [hi, hres, truthyStr]

/-! ## C5 — property relevance -/

theorem normChar_eq (c : Char) :
    (if (if c = '/' then '.' else c) = '/' then '.'
     else if c = '/' then '.' else c) = if c = '/' then '.' else c := by
  by_cases h : c = '/' <;> simp [h]

theorem normalizePropertyPath_idem (p : String) :
    normalizePropertyPath (normalizePropertyPath p) = normalizePropertyPath p := by
  unfold normalizePropertyPath
  refine congrArg String.mk ?_
  show (p.data.map _).map _ = p.data.map _
  induction p.data with
  | nil => rfl
  | cons c cs ih => simp only [List.map_cons, ih, normChar_eq]

theorem core_norm_fixed :
    ∀ y ∈ CORE_PROPERTIES, normalizePropertyPath y = y := by decide

theorem mem_setAdd (s : List String) (x y : String) :
    y ∈ setAdd s x ↔ y ∈ s ∨ y = x := by
  unfold setAdd
  by_cases h : x ∈ s
  · rw [if_pos h]
    constructor
    · exact Or.inl
    · rintro (h1 | rfl)
      · exact h1
      · exact h
  · rw [if_neg h]
    simp

theorem mem_foldl_setAddNorm (l : List String) :
    ∀ (a : List String) (y : String),
      y ∈ l.foldl (fun a p => setAdd a (normalizePropertyPath p)) a ↔
        y ∈ a ∨ ∃ p ∈ l, y = normalizePropertyPath p := by
  induction l with
  | nil => intro a y; simp
  | cons p ps ih =>
    intro a y
    rw [List.foldl_cons, ih, mem_setAdd]
    simp only [List.mem_cons]
    constructor
    · rintro ((h | h) | ⟨q, hq, rfl⟩)
      · exact Or.inl h
      · exact Or.inr ⟨p, Or.inl rfl, h⟩
      · exact Or.inr ⟨q, Or.inr hq, rfl⟩
    · rintro (h | ⟨q, hq | hq, rfl⟩)
      · exact Or.inl (Or.inl h)
      · exact Or.inl (Or.inr (by rw [hq]))
      · exact Or.inr ⟨q, hq, rfl⟩

theorem mem_rules_foldl (rules : List RenamingRule) :
    ∀ (a : List String) (y : String),
      y ∈ rules.foldl
          (fun acc rule =>
            if ¬ rule.enabled then acc
            else (extractRuleProperties rule).foldl
              (fun a p => setAdd a (normalizePropertyPath p)) acc) a ↔
        y ∈ a ∨ ∃ r ∈ rules, r.enabled = true ∧
          ∃ p ∈ extractRuleProperties r, y = normalizePropertyPath p := by
  induction rules with
  | nil => intro a y; simp
  | cons r rs ih =>
    intro a y
    rw [List.foldl_cons]
    by_cases hr : r.enabled
    · rw [if_neg (by simp [hr]), ih, mem_foldl_setAddNorm]
      simp only [List.mem_cons]
      constructor
      · rintro ((h | ⟨p, hp, rfl⟩) | ⟨r2, hr2, he2, p, hp, rfl⟩)
        · exact Or.inl h
        · exact Or.inr ⟨r, Or.inl rfl, hr, p, hp, rfl⟩
        · exact Or.inr ⟨r2, Or.inr hr2, he2, p, hp, rfl⟩
      · rintro (h | ⟨r2, hr2 | hr2, he2, p, hp, rfl⟩)
        · exact Or.inl (Or.inl h)
        · exact Or.inl (Or.inr ⟨p, by rw [hr2] at hp; exact hp, rfl⟩)
        · exact Or.inr ⟨r2, hr2, he2, p, hp, rfl⟩
    · rw [if_pos (by simp [hr]), ih]
      simp only [List.mem_cons]
      constructor
      · rintro (h | ⟨r2, hr2, he2, p, hp, rfl⟩)
        · exact Or.inl h
        · exact Or.inr ⟨r2, Or.inr hr2, he2, p, hp, rfl⟩
      · rintro (h | ⟨r2, hr2 | hr2, he2, p, hp, rfl⟩)
        · exact Or.inl h
        · exact absurd (hr2 ▸ he2) (by simpa using hr)
        · exact Or.inr ⟨r2, hr2, he2, p, hp, rfl⟩

theorem mem_extractVfsProperties (cfg : RenamingConfig) (y : String) :
    y ∈ extractVfsProperties cfg ↔
      y ∈ CORE_PROPERTIES ∨
      (∃ r ∈ cfg.rules, r.enabled = true ∧
        ∃ p ∈ extractRuleProperties r, y = normalizePropertyPath p) ∨
      (∃ dr, cfg.defaultRule = some dr ∧
        ∃ p ∈ extractRuleProperties dr, y = normalizePropertyPath p) := by
  simp only [extractVfsProperties]
  cases hdr : cfg.defaultRule with
  | none =>
    rw [mem_rules_foldl]
    constructor
    · rintro (h | h)
      · exact Or.inl h
      · exact Or.inr (Or.inl h)
    · rintro (h | h | ⟨dr, hdr2, _⟩)
      · exact Or.inl h
      · exact Or.inr h
      · exact absurd hdr2 (by simp [hdr])
  | some dr =>
    rw [mem_foldl_setAddNorm, mem_rules_foldl]
    constructor
    · rintro ((h | h) | ⟨p, hp, rfl⟩)
      · exact Or.inl h
      · exact Or.inr (Or.inl h)
      · exact Or.inr (Or.inr ⟨dr, rfl, p, hp, rfl⟩)
    · rintro (h | h | ⟨dr2, hdr2, p, hp, rfl⟩)
      · exact Or.inl (Or.inl h)
      · exact Or.inl (Or.inr h)
      · injection hdr2 with h3
        subst h3
        exact Or.inr ⟨p, hp, rfl⟩

theorem isVfs_iff (prop : String) (S : List String) :
    isVfsRelevantProperty prop S = true ↔
      ∃ y ∈ S, (normalizePropertyPath prop = y ∨
        strStartsWith (normalizePropertyPath prop)
          (normalizePropertyPath y ++ ".") = true ∨
        strStartsWith (normalizePropertyPath y)
          (normalizePropertyPath prop ++ ".") = true) := by
  simp only [isVfsRelevantProperty]
  by_cases h : normalizePropertyPath prop ∈ S
  · rw [if_pos h]
    exact iff_of_true rfl ⟨_, h, Or.inl rfl⟩
  · rw [if_neg h, List.any_eq_true]
    constructor
    · rintro ⟨y, hy, hf⟩
      rw [Bool.or_eq_true] at hf
      rcases hf with hf | hf
      · exact ⟨y, hy, Or.inr (Or.inl hf)⟩
      · exact ⟨y, hy, Or.inr (Or.inr hf)⟩
    · rintro ⟨y, hy, hc | hc | hc⟩
      · exact absurd (hc ▸ hy) h
      · exact ⟨y, hy, by rw [Bool.or_eq_true]; exact Or.inl hc⟩
      · exact ⟨y, hy, by rw [Bool.or_eq_true]; exact Or.inr hc⟩

/-- C5: a property is judged relevant by `isVfsRelevantProperty` against
`extractVfsProperties config` exactly when the specification's clause
holds: its slash-to-dot-normalized form equals the normalized form of a
relevance-set member, or one is a dotted-prefix ancestor of the other,
the relevance set being the seven core properties plus the template
variables and condition fields of every enabled rule and of the
`defaultRule`. -/
theorem C5_relevance_iff_spec (cfg : RenamingConfig) (prop : String) :
    isVfsRelevantProperty prop (extractVfsProperties cfg) = true ↔
      specRelevant cfg prop := by
  rw [isVfs_iff]
  constructor
  · rintro ⟨y, hy, hc⟩
    rcases (mem_extractVfsProperties cfg y).mp hy with hcore | hrule | hdr
    · have hfix : normalizePropertyPath y = y := core_norm_fixed y hcore
      refine ⟨y, Or.inl hcore, ?_⟩
      rcases hc with hc | hc | hc
      · exact Or.inl (by rw [hc, hfix])
      · exact Or.inr (Or.inl hc)
      · exact Or.inr (Or.inr hc)
    · rcases hrule with ⟨r, hr, hen, p, hp, rfl⟩
      rw [extractRuleProperties, List.mem_append] at hp
      refine ⟨p, Or.inr (Or.inl ⟨r, hr, hen, hp⟩), ?_⟩
      rcases hc with hc | hc | hc
      · exact Or.inl hc
      · rw [normalizePropertyPath_idem] at hc
        exact Or.inr (Or.inl hc)
      · rw [normalizePropertyPath_idem] at hc
        exact Or.inr (Or.inr hc)
    · rcases hdr with ⟨dr, hdr2, p, hp, rfl⟩
      rw [extractRuleProperties, List.mem_append] at hp
      refine ⟨p, Or.inr (Or.inr ⟨dr, hdr2, hp⟩), ?_⟩
      rcases hc with hc | hc | hc
      · exact Or.inl hc
      · rw [normalizePropertyPath_idem] at hc
        exact Or.inr (Or.inl hc)
      · rw [normalizePropertyPath_idem] at hc
        exact Or.inr (Or.inr hc)
  · rintro ⟨m, hm, hc⟩
    rcases hm with hcore | ⟨r, hr, hen, hmem⟩ | ⟨dr, hdr2, hmem⟩
    · have hfix : normalizePropertyPath m = m := core_norm_fixed m hcore
      refine ⟨m, (mem_extractVfsProperties cfg m).mpr (Or.inl hcore), ?_⟩
      rcases hc with hc | hc | hc
      · exact Or.inl (by rw [hc, hfix])
      · exact Or.inr (Or.inl hc)
      · exact Or.inr (Or.inr hc)
    · refine ⟨normalizePropertyPath m,
        (mem_extractVfsProperties cfg _).mpr (Or.inr (Or.inl ⟨r, hr, hen, m,
          by rw [extractRuleProperties, List.mem_append]; exact hmem, rfl⟩)), ?_⟩
      rcases hc with hc | hc | hc
      · exact Or.inl hc
      · exact Or.inr (Or.inl (by rw [normalizePropertyPath_idem]; exact hc))
      · exact Or.inr (Or.inr (by rw [normalizePropertyPath_idem]; exact hc))
    · refine ⟨normalizePropertyPath m,
        (mem_extractVfsProperties cfg _).mpr (Or.inr (Or.inr ⟨dr, hdr2, m,
          by rw [extractRuleProperties, List.mem_append]; exact hmem, rfl⟩)), ?_⟩
      rcases hc with hc | hc | hc
      · exact Or.inl hc
      · exact Or.inr (Or.inl (by rw [normalizePropertyPath_idem]; exact hc))
      · exact Or.inr (Or.inr (by rw [normalizePropertyPath_idem]; exact hc))

/-! ## C3 — `\x7bpath|fallback\x7d` semantics -/

theorem strMk_data (s : String) : String.mk s.data = s := by
  cases s
  rfl

theorem strData_append (a b : String) : (a ++ b).data = a.data ++ b.data := rfl

theorem str_ne_empty_data (d : String) (h : d ≠ "") : d.data ≠ [] := by
  intro hc
  exact h (strData_inj (by rw [hc]))

theorem joinAll_single (x : String) : joinAll [x] = x := by
  show joinAll [x] = x
  unfold joinAll
  show ("" ++ x) = x
  apply strData_inj
  rw [strData_append]
  rfl

theorem getLast_append_ne (l1 l2 : List Char) (h : l2 ≠ []) :
    (l1 ++ l2).getLast? = l2.getLast? := by
  induction l1 with
  | nil => rfl
  | cons c cs ih =>
    rw [List.cons_append]
    cases hcs : cs ++ l2 with
    | nil =>
      exfalso
      rcases List.append_eq_nil.mp hcs with ⟨-, h2⟩
      exact h h2
    | cons y ys =>
      rw [List.getLast?_cons_cons, ← hcs, ih]

theorem isFieldNameStr_decomp (p : String) (hp : isFieldNameStr p = true) :
    ∃ c rest, p.data = c :: rest ∧ isFieldStartChar c = true ∧
      (∀ x ∈ rest, isFieldChar x = true) := by
  unfold isFieldNameStr at hp
  cases hd : p.data with
  | nil => rw [hd] at hp; simp [identPrefix] at hp
  | cons c rest =>
    rw [hd] at hp
    by_cases hs : isFieldStartChar c
    · rw [identPrefix, if_pos hs] at hp
      cases hdw : rest.dropWhile isFieldChar with
      | nil =>
        exact ⟨c, rest, rfl, hs, fun x hx =>
          List.dropWhile_eq_nil_iff.mp hdw x hx⟩
      | cons y ys => rw [hdw] at hp; simp at hp
    · rw [identPrefix, if_neg hs] at hp
      simp at hp

theorem takeWhile_append_all (P : Char → Bool) (l1 l2 : List Char)
    (h : ∀ c ∈ l1, P c = true) :
    (l1 ++ l2).takeWhile P = l1 ++ l2.takeWhile P := by
  induction l1 with
  | nil => rfl
  | cons c cs ih =>
    rw [List.cons_append, List.takeWhile_cons, if_pos (h c (by simp)),
      List.cons_append, ih (fun x hx => h x (by simp [hx]))]

theorem dropWhile_append_all (P : Char → Bool) (l1 l2 : List Char)
    (h : ∀ c ∈ l1, P c = true) :
    (l1 ++ l2).dropWhile P = l2.dropWhile P := by
  induction l1 with
  | nil => rfl
  | cons c cs ih =>
    rw [List.cons_append, List.dropWhile_cons, if_pos (h c (by simp)),
      ih (fun x hx => h x (by simp [hx]))]

theorem identPrefix_field_sep (p : String) (hp : isFieldNameStr p = true)
    (sep : Char) (hsep : isFieldChar sep = false) (tail : List Char) :
    identPrefix (p.data ++ sep :: tail) = some (p.data, sep :: tail) := by
  obtain ⟨c, rest, hd, hs, hall⟩ := isFieldNameStr_decomp p hp
  rw [hd, List.cons_append, identPrefix, if_pos hs]
  rw [takeWhile_append_all _ _ _ hall, dropWhile_append_all _ _ _ hall]
  rw [List.takeWhile_cons, if_neg (by simp [hsep]),
    List.dropWhile_cons, if_neg (by simp [hsep])]
  simp

theorem findClose_nobrace (cs : List Char)
    (h : ∀ c ∈ cs, c ≠ '{' ∧ c ≠ '}') :
    findClose (cs ++ ['}']) 0 = some (cs, []) := by
  induction cs with
  | nil => rfl
  | cons a as ih =>
    have ha := h a (by simp)
    rw [List.cons_append, findClose, if_neg (by simpa using ha.1),
      if_neg (by simpa using ha.2), ih (fun x hx => h x (by simp [hx]))]
    rfl

theorem fieldName_no_brace (p : String) (hp : isFieldNameStr p = true) :
    ∀ c ∈ p.data, c ≠ '{' ∧ c ≠ '}' := by
  obtain ⟨c, rest, hd, hs, hall⟩ := isFieldNameStr_decomp p hp
  rw [hd]
  intro x hx
  rcases List.mem_cons.mp hx with rfl | hx2
  · constructor <;> rintro rfl <;> simp [isFieldStartChar] at hs
  · have := hall x hx2
    constructor <;> rintro rfl <;> simp [isFieldChar] at this

theorem parseVariable_default (p d : String)
    (hp : isFieldNameStr p = true)
    (hd1 : d ≠ "")
    (hdot : ∀ c ∈ d.data, jsDotNoS c = true)
    (hq : d.data.getLast? ≠ some '?') :
    parseVariable (String.mk (p.data ++ '|' :: d.data)) = .defaultTok p d := by
  have hident := identPrefix_field_sep p hp '|' (by decide) d.data
  have hdne : d.data ≠ [] := str_ne_empty_data d hd1
  have hlast : (p.data ++ '|' :: d.data).getLast? = d.data.getLast? := by
    rw [getLast_append_ne _ _ (by simp)]
    show (['|'] ++ d.data).getLast? = d.data.getLast?
    rw [getLast_append_ne _ _ hdne]
  have hcond : condMatch (p.data ++ '|' :: d.data) = none := by
    rw [condMatch, hident]
    rfl
  have hdef : defaultMatch (p.data ++ '|' :: d.data) = some (p.data, d.data) := by
    rw [defaultMatch, hident]
    show (if d.data ≠ [] ∧ d.data.all jsDotNoS = true then some (p.data, d.data)
      else none) = some (p.data, d.data)
    rw [if_pos ⟨hdne, List.all_eq_true.mpr hdot⟩]
  show parseVariable ⟨p.data ++ '|' :: d.data⟩ = .defaultTok p d
  rw [parseVariable]
  simp only [hcond, hdef, hlast]
  rw [if_neg hq]

theorem tokenizeGo_single (content : List Char) (n : Nat)
    (hnb : ∀ c ∈ content, c ≠ '{' ∧ c ≠ '}') :
    tokenizeGo (n + 1) ('{' :: (content ++ ['}'])) [] =
      [parseVariable (String.mk content)] := by
  rw [tokenizeGo, if_pos rfl, findClose_nobrace content hnb]
  show parseVariable (String.mk content) :: tokenizeGo n [] [] = _
  cases n with
  | zero => rfl
  | succ k => rfl

theorem tokenize_default (p d : String) (hp : isFieldNameStr p = true)
    (hbrd : ∀ c ∈ d.data, c ≠ '{' ∧ c ≠ '}') :
    tokenize ("\x7b" ++ p ++ "|" ++ d ++ "\x7d") =
      [parseVariable (String.mk (p.data ++ '|' :: d.data))] := by
  have hnb : ∀ c ∈ p.data ++ '|' :: d.data, c ≠ '{' ∧ c ≠ '}' := by
    intro c hc
    rcases List.mem_append.mp hc with h | h
    · exact fieldName_no_brace p hp c h
    · rcases List.mem_cons.mp h with rfl | h2
      · exact ⟨by decide, by decide⟩
      · exact hbrd c h2
  have hdata : ("\x7b" ++ p ++ "|" ++ d ++ "\x7d").data =
      '{' :: ((p.data ++ '|' :: d.data) ++ ['}']) := by
    simp [strData_append]
  have hstep : tokenize ("\x7b" ++ p ++ "|" ++ d ++ "\x7d") =
      tokenizeGo ("\x7b" ++ p ++ "|" ++ d ++ "\x7d").data.length
        ("\x7b" ++ p ++ "|" ++ d ++ "\x7d").data [] := rfl
  rw [hstep, hdata]
  have hlen : ('{' :: ((p.data ++ '|' :: d.data) ++ ['}'])).length =
      (p.data ++ '|' :: d.data).length + 2 := by simp; omega
  rw [hlen]
  exact tokenizeGo_single _ _ hnb

/-- C3 (amended): for a template consisting of a single variable
`\x7bp|d\x7d` where `p` matches the field-name grammar and the fallback `d`
is non-empty, free of braces and line terminators, and does not end in
`?` (so that the variable indeed parses as a default token rather than an
optional, conditional or simple variable), interpolation substitutes the
primary field's stringified value when present; otherwise, when `d`
matches the field-name grammar, it is looked up as a second field whose
value is substituted when present, the whole interpolation returning
`none` when both are missing; and when `d` does not match the grammar it
is emitted as a literal default. -/
theorem C3_amended_default_fallback (md : List (String × JVal)) (p d : String)
    (hp : isFieldNameStr p = true)
    (hd1 : d ≠ "")
    (hdot : d.data.all jsDotNoS = true)
    (hq : d.data.getLast? ≠ some '?')
    (hbr : d.data.all (fun c => decide ¬(c = '{' ∨ c = '}')) = true) :
    interpolate ("\x7b" ++ p ++ "|" ++ d ++ "\x7d") md =
      (if ¬ (getNestedValue (JVal.vobj md) p).isMissing = true then
        some (jsToString (getNestedValue (JVal.vobj md) p))
      else if isFieldNameStr d = true then
        (if ¬ (getNestedValue (JVal.vobj md) d).isMissing = true then
          some (jsToString (getNestedValue (JVal.vobj md) d))
        else none)
      else some d) := by
  have hbrd : ∀ c ∈ d.data, c ≠ '{' ∧ c ≠ '}' := by
    intro c hc
    have h2 := List.all_eq_true.mp hbr c hc
    rw [decide_eq_true_eq] at h2
    exact ⟨fun h3 => h2 (Or.inl h3), fun h3 => h2 (Or.inr h3)⟩
  have hdot2 : ∀ c ∈ d.data, jsDotNoS c = true := List.all_eq_true.mp hdot
  simp only [interpolate]
  rw [tokenize_default p d hp hbrd, parseVariable_default p d hp hd1 hdot2 hq]
  obtain ⟨k, hk⟩ : ∃ k,
      (("\x7b" ++ p ++ "|" ++ d ++ "\x7d").length + 1) *
        (("\x7b" ++ p ++ "|" ++ d ++ "\x7d").length + 1) = k + 1 :=
    ⟨("\x7b" ++ p ++ "|" ++ d ++ "\x7d").length *
        ("\x7b" ++ p ++ "|" ++ d ++ "\x7d").length +
      2 * ("\x7b" ++ p ++ "|" ++ d ++ "\x7d").length, by ring⟩
  rw [hk]
  have hnil : evalTokensF md k [] = some [] := by
    cases k with
    | zero => rfl
    | succ j => rfl
  simp only [evalTokensF, hnil]
  by_cases h1 : (getNestedValue (.vobj md) p).isMissing
  · by_cases h2 : isFieldNameStr d
    · by_cases h3 : (getNestedValue (.vobj md) d).isMissing
      · simp [h1, h2, h3]
      · simp [h1, h2, h3, joinAll_single]
    · simp [h1, h2, joinAll_single]
  · simp [h1, joinAll_single]

/-- Witness for C3 (amended): `\x7btitles.eng|originalTitle\x7d` over a map
holding only `originalTitle` resolves to the fallback field's value. -/
theorem C3_amended_default_fallback_witness :
    (isFieldNameStr "titles.eng" = true ∧ ("originalTitle" : String) ≠ "" ∧
     "originalTitle".data.all jsDotNoS = true ∧
     ¬ "originalTitle".data.getLast? = some '?' ∧
     "originalTitle".data.all (fun c => decide ¬(c = '{' ∨ c = '}')) = true) ∧
    interpolate ("\x7b" ++ "titles.eng" ++ "|" ++ "originalTitle" ++ "\x7d")
        [("originalTitle", JVal.vstr "OT")] =
      (if ¬ (getNestedValue (JVal.vobj [("originalTitle", JVal.vstr "OT")])
            "titles.eng").isMissing = true then
        some (jsToString (getNestedValue
          (JVal.vobj [("originalTitle", JVal.vstr "OT")]) "titles.eng"))
      else if isFieldNameStr "originalTitle" = true then
        (if ¬ (getNestedValue (JVal.vobj [("originalTitle", JVal.vstr "OT")])
              "originalTitle").isMissing = true then
          some (jsToString (getNestedValue
            (JVal.vobj [("originalTitle", JVal.vstr "OT")]) "originalTitle"))
        else none)
      else some "originalTitle") :=
  ⟨⟨by decide, by decide, by decide, by decide, by decide⟩,
   C3_amended_default_fallback [("originalTitle", JVal.vstr "OT")]
     "titles.eng" "originalTitle" (by decide) (by decide) (by decide)
     (by decide) (by decide)⟩

/-- C3 counterexample: the fallback `x?` does not match the field-name
grammar, so per the claim it should be emitted as the literal default
`x?`; instead the trailing `?` makes the whole content parse as an
optional token, and interpolation over an empty map yields `some ""`. -/
theorem C3_counterexample :
    isFieldNameStr "x?" = false ∧
    interpolate "\x7btitles.eng|x?\x7d" [] = some "" ∧
    ¬ interpolate "\x7btitles.eng|x?\x7d" [] = some "x?" := by
  refine ⟨by decide, by decide, by decide⟩
/-! ## C6 — duplicated set event -/

theorem mapHas_iff_isSome (m : List (String × β)) (k : String) :
    mapHas m k = true ↔ (mapLookup m k).isSome = true := by
  induction m with
  | nil => simp [mapHas, mapLookup]
  | cons e es ih =>
    by_cases he : e.1 = k
    · simp [mapHas, mapLookup, he]
    · simp [mapHas, mapLookup, he, ih]

theorem mapReplace_all_key (m : List (String × β)) (k : String) (v : β) :
    ∀ e ∈ mapReplace k v m, e.1 = k → e = (k, v) := by
  induction m with
  | nil => simp [mapReplace]
  | cons f fs ih =>
    intro e he hk
    by_cases hf : f.1 = k
    · rw [mapReplace, if_pos hf] at he
      rcases List.mem_cons.mp he with rfl | h2
      · rfl
      · exact ih e h2 hk
    · rw [mapReplace, if_neg hf] at he
      rcases List.mem_cons.mp he with rfl | h2
      · exact absurd hk hf
      · exact ih e h2 hk

theorem mapSet_all_key (m : List (String × β)) (k : String) (v : β) :
    ∀ e ∈ mapSet m k v, e.1 = k → e = (k, v) := by
  unfold mapSet
  split
  · exact mapReplace_all_key m k v
  · rename_i h
    intro e he hk
    rcases List.mem_append.mp he with h2 | h2
    · exact absurd hk (mapHas_eq_false_no_key m k (by simpa using h) e h2)
    · simpa using h2

theorem mapReplace_mem (m : List (String × β)) (k : String) (v : β) :
    ∀ e ∈ mapReplace k v m, e = (k, v) ∨ e ∈ m := by
  induction m with
  | nil => simp [mapReplace]
  | cons f fs ih =>
    intro e he
    by_cases hf : f.1 = k
    · rw [mapReplace, if_pos hf] at he
      rcases List.mem_cons.mp he with rfl | h2
      · exact Or.inl rfl
      · rcases ih e h2 with h3 | h3
        · exact Or.inl h3
        · exact Or.inr (by simp [h3])
    · rw [mapReplace, if_neg hf] at he
      rcases List.mem_cons.mp he with rfl | h2
      · exact Or.inr (by simp)
      · rcases ih e h2 with h3 | h3
        · exact Or.inl h3
        · exact Or.inr (by simp [h3])

theorem mapSet_preserve_all_key (m : List (String × β)) (k : String) (v : β)
    (k' : String) (w : β) (hne : k' ≠ k)
    (hall : ∀ e ∈ m, e.1 = k → e = (k, v)) :
    ∀ e ∈ mapSet m k' w, e.1 = k → e = (k, v) := by
  intro e he hk
  unfold mapSet at he
  split at he
  · rcases mapReplace_mem m k' w e he with rfl | h2
    · exact absurd hk hne
    · exact hall e h2 hk
  · rcases List.mem_append.mp he with h2 | h2
    · exact hall e h2 hk
    · simp at h2
      rw [h2] at hk
      exact absurd hk hne

theorem setAdd_self_mem (s : List String) (x : String) : x ∈ setAdd s x := by
  unfold setAdd
  split
  · assumption
  · simp

theorem setAdd_eq_of_mem (s : List String) (x : String) (h : x ∈ s) :
    setAdd s x = s := by
  unfold setAdd
  rw [if_pos h]

theorem mapHas_set_self (m : List (String × β)) (k : String) (v : β) :
    mapHas (mapSet m k v) k = true := by
  rw [mapHas_iff_isSome, mapLookup_set_self]
  rfl

theorem ensureDirectory_noop (fuel : Nat) (s : VfsState) (d : String)
    (h : normalizePath d = "/" ∨ (mapLookup s.nodes (normalizePath d)).isSome = true) :
    ensureDirectory fuel s d = s := by
  cases fuel with
  | zero => rfl
  | succ n =>
    simp only [ensureDirectory]
    rw [if_pos h]

theorem ensureDirectory_post (f : Nat) (s : VfsState) (d : String)
    (hne : normalizePath d ≠ "/") :
    (mapLookup (ensureDirectory (f + 1) s d).nodes (normalizePath d)).isSome = true := by
  simp only [ensureDirectory]
  by_cases h : normalizePath d = "/" ∨ (mapLookup s.nodes (normalizePath d)).isSome = true
  · rw [if_pos h]
    rcases h with h | h
    · exact absurd h hne
    · exact h
  · rw [if_neg h]
    rw [← mapHas_iff_isSome]
    split
    · split
      · exact mapHas_set _ _ _ _ (mapHas_set_self _ _ _)
      · exact mapHas_set_self _ _ _
    · exact mapHas_set_self _ _ _

theorem dirname_norm_ne (v : String) (hroot : normalizePath v ≠ "/") :
    dirname (normalizePath v) ≠ normalizePath v := by
  intro hc
  have hhead : (normalizePath v).data.head? = some '/' := normalizeCs_head v.data
  have hnl : (normalizePath v).data ≠ ['/'] := fun hd => hroot (strData_inj (by rw [hd]))
  have hf : (dirname (normalizePath v)).length < (normalizePath v).length :=
    (dirnameCs_facts (normalizePath v).data hhead hnl).2
  rw [hc] at hf
  exact lt_irrefl _ hf

theorem ensureDirectory_srcIndex (fuel : Nat) :
    ∀ (s : VfsState) (d : String),
      (ensureDirectory fuel s d).sourcePathToVirtualPath = s.sourcePathToVirtualPath := by
  induction fuel with
  | zero => intro s d; rfl
  | succ n ih =>
    intro s d
    simp only [ensureDirectory]
    split
    · rfl
    · split
      · split <;> simp [ih]
      · simp [ih]

theorem addFileSync_srcIndex (s : VfsState) (v : String) (md : FileMetadata)
    (now : Int) :
    (addFileSync s v md now).sourcePathToVirtualPath = s.sourcePathToVirtualPath := by
  simp only [addFileSync]
  split
  · split
    · split
      · split <;> simp [ensureDirectory_srcIndex]
      · simp [ensureDirectory_srcIndex]
    · split
      · split <;> simp [ensureDirectory_srcIndex]
      · simp [ensureDirectory_srcIndex]
  · split
    · split <;> simp [ensureDirectory_srcIndex]
    · simp [ensureDirectory_srcIndex]

theorem addFileSync_all_key (s : VfsState) (v : String) (md : FileMetadata)
    (now : Int) :
    ∀ e ∈ (addFileSync s v md now).nodes, e.1 = normalizePath v →
      e = (normalizePath v,
        { ntype := .file, name := basename (normalizePath v),
          parent := some (dirname (normalizePath v)),
          sourcePath := some md.sourcePath,
          size := some (numOr md.size 0),
          mtime := some (numOr md.mtime now),
          ctime := some (numOr md.ctime (numOr md.mtime now)),
          metadata := some md }) := by
  intro e he hk
  revert he
  simp only [addFileSync]
  split
  · rename_i parentNode heq
    split
    · rename_i hdirn
      by_cases hroot : normalizePath v = "/"
      · have hdr : dirname (normalizePath v) = normalizePath v := by rw [hroot]; decide
        rw [hdr, mapLookup_set_self] at heq
        injection heq with h2
        rw [← h2] at hdirn
        simp at hdirn
      · intro he
        exact mapSet_preserve_all_key _ _ _ _ _ (dirname_norm_ne v hroot)
          (mapSet_all_key _ _ _) e he hk
    · intro he
      exact mapSet_all_key _ _ _ e he hk
  · intro he
    exact mapSet_all_key _ _ _ e he hk

theorem addFileSync_dir_present (s : VfsState) (v : String) (md : FileMetadata)
    (now : Int) :
    normalizePath (dirname (normalizePath v)) = "/" ∨
      (mapLookup (addFileSync s v md now).nodes
        (normalizePath (dirname (normalizePath v)))).isSome = true := by
  by_cases hroot2 : normalizePath (dirname (normalizePath v)) = "/"
  · exact Or.inl hroot2
  · refine Or.inr ?_
    rw [← mapHas_iff_isSome]
    simp only [addFileSync]
    split
    · split
      · exact mapHas_set _ _ _ _ (mapHas_set _ _ _ _
          ((mapHas_iff_isSome _ _).mpr (ensureDirectory_post _ _ _ hroot2)))
      · exact mapHas_set _ _ _ _
          ((mapHas_iff_isSome _ _).mpr (ensureDirectory_post _ _ _ hroot2))
    · exact mapHas_set _ _ _ _
        ((mapHas_iff_isSome _ _).mpr (ensureDirectory_post _ _ _ hroot2))

theorem addFileSync_parent_child (s : VfsState) (v : String) (md : FileMetadata)
    (now : Int) :
    ∀ pn, mapLookup (addFileSync s v md now).nodes (dirname (normalizePath v)) = some pn →
      pn.ntype = NodeType.directory →
      (basename (normalizePath v) ∈ pn.children.getD [] ∧
       ∀ e ∈ (addFileSync s v md now).nodes, e.1 = dirname (normalizePath v) →
         e = (dirname (normalizePath v), pn)) := by
  intro pn hpn hdir
  revert hpn
  simp only [addFileSync]
  split
  · rename_i parentNode heq
    split
    · rename_i hd2
      intro hpn
      rw [mapLookup_set_self] at hpn
      injection hpn with h2
      subst h2
      constructor
      · exact setAdd_self_mem _ _
      · exact mapSet_all_key _ _ _
    · rename_i hd2
      intro hpn
      rw [heq] at hpn
      injection hpn with h2
      rw [← h2] at hdir
      exact absurd hdir hd2
  · rename_i heq
    intro hpn
    rw [heq] at hpn
    exact Option.noConfusion hpn

theorem addFileSync_noop (s : VfsState) (v : String) (md : FileMetadata)
    (now : Int) (m : Int)
    (hmt : md.mtime = some m) (hm0 : m ≠ 0)
    (hlk : mapLookup s.nodes (normalizePath v) =
      some { ntype := .file, name := basename (normalizePath v),
             parent := some (dirname (normalizePath v)),
             sourcePath := some md.sourcePath,
             size := some (numOr md.size 0),
             mtime := some m,
             ctime := some (numOr md.ctime m),
             metadata := some md })
    (hall : ∀ e ∈ s.nodes, e.1 = normalizePath v →
      e = (normalizePath v,
        { ntype := .file, name := basename (normalizePath v),
          parent := some (dirname (normalizePath v)),
          sourcePath := some md.sourcePath,
          size := some (numOr md.size 0),
          mtime := some m,
          ctime := some (numOr md.ctime m),
          metadata := some md }))
    (hdirp : normalizePath (dirname (normalizePath v)) = "/" ∨
      (mapLookup s.nodes (normalizePath (dirname (normalizePath v)))).isSome = true)
    (hchild : ∀ pn, mapLookup s.nodes (dirname (normalizePath v)) = some pn →
      pn.ntype = NodeType.directory →
      (basename (normalizePath v) ∈ pn.children.getD [] ∧
       ∀ e ∈ s.nodes, e.1 = dirname (normalizePath v) →
         e = (dirname (normalizePath v), pn))) :
    (addFileSync s v md now).nodes = s.nodes ∧
    (addFileSync s v md now).fileCount = s.fileCount ∧
    (addFileSync s v md now).totalSize = s.totalSize ∧
    (addFileSync s v md now).directoryCount = s.directoryCount := by
  have hnum : numOr md.mtime now = m := by
    rw [hmt]
    show (if m = 0 then now else m) = m
    rw [if_neg hm0]
  have hset : mapSet s.nodes (normalizePath v)
      { ntype := .file, name := basename (normalizePath v),
        parent := some (dirname (normalizePath v)),
        sourcePath := some md.sourcePath,
        size := some (numOr md.size 0),
        mtime := some m,
        ctime := some (numOr md.ctime m),
        metadata := some md } = s.nodes :=
    mapSet_eq_self _ _ _ (mapHas_of_lookup _ _ _ hlk) hall
  have hens : ∀ t : VfsState, t.nodes = s.nodes →
      ensureDirectory ((normalizePath (dirname (normalizePath v))).length + 1) t
        (dirname (normalizePath v)) = t := by
    intro t ht
    exact ensureDirectory_noop _ _ _ (by rw [ht]; exact hdirp)
  simp only [addFileSync, hnum, hlk, if_true, Option.getD_some]
  simp only [hens]
  simp only [hset]
  cases hpn : mapLookup s.nodes (dirname (normalizePath v)) with
  | none =>
    refine ⟨rfl, ?_, ?_, rfl⟩ <;> simp
  | some pn =>
    simp only []
    by_cases hd : pn.ntype = NodeType.directory
    · rw [if_pos hd]
      obtain ⟨hmem2, hall2⟩ := hchild pn hpn hd
      cases hc : pn.children with
      | none =>
        rw [hc] at hmem2
        simp at hmem2
      | some l =>
        rw [hc] at hmem2
        simp only [Option.getD_some] at hmem2
        have hset2 : mapSet s.nodes (dirname (normalizePath v)) pn = s.nodes :=
          mapSet_eq_self _ _ _ (mapHas_of_lookup _ _ _ hpn) hall2
        rw [Option.getD_some, setAdd_eq_of_mem _ _ hmem2, ← hc, hset2]
        refine ⟨rfl, ?_, ?_, rfl⟩ <;> simp
    · rw [if_neg hd]
      refine ⟨rfl, ?_, ?_, rfl⟩ <;> simp

/-- `onFileComplete` under the non-empty source-path and virtual-path
conditions: the result is `addFileSync` of some intermediate state,
re-indexed; and when the fileId already maps to the same virtual path,
the intermediate state is the input itself (no `removeFile`). -/
theorem vfsOnFileComplete_components (rx : String → String → Bool)
    (rcfg : RenamingConfig) (filesPath : String) (now : Int) (hashId : String)
    (props : List (String × String)) (s : VfsState) (md : FileMetadata)
    (v : String)
    (hmd : md = flatPropertiesToMetadata filesPath props hashId)
    (hsp : md.sourcePath ≠ "")
    (hv : v = computeVirtualPath rx rcfg md md.sourcePath)
    (hvne : v ≠ "") :
    ∃ s1, vfsOnFileComplete rx rcfg filesPath now hashId props s =
        { addFileSync s1 v md now with
          sourcePathToVirtualPath :=
            mapSet (addFileSync s1 v md now).sourcePathToVirtualPath
              md.sourcePath v,
          hashIdToVirtualPath :=
            mapSet (addFileSync s1 v md now).hashIdToVirtualPath hashId v,
          lastRefresh := some now } ∧
      (mapLookup s.hashIdToVirtualPath hashId = some v → s1 = s) := by
  simp only [vfsOnFileComplete, ← hmd, ← hv]
  rw [if_neg hsp, if_neg hvne]
  refine ⟨_, rfl, ?_⟩
  intro hself
  rw [hself]
  show (if v ≠ "" ∧ v ≠ v then removeFile s v else s) = s
  rw [if_neg (by simp)]

set_option maxHeartbeats 2000000 in
theorem vfsOnFileComplete_idem (rx : String → String → Bool)
    (rcfg : RenamingConfig) (filesPath : String) (now₁ now₂ : Int)
    (hashId : String) (props : List (String × String)) (s A B : VfsState)
    (md : FileMetadata) (v : String) (m : Int)
    (hmd : md = flatPropertiesToMetadata filesPath props hashId)
    (hsp : md.sourcePath ≠ "")
    (hv : v = computeVirtualPath rx rcfg md md.sourcePath)
    (hvne : v ≠ "")
    (hmt : md.mtime = some m) (hm0 : m ≠ 0)
    (hA : A = vfsOnFileComplete rx rcfg filesPath now₁ hashId props s)
    (hB : B = vfsOnFileComplete rx rcfg filesPath now₂ hashId props A) :
    B.nodes = A.nodes ∧
    B.sourcePathToVirtualPath = A.sourcePathToVirtualPath ∧
    B.hashIdToVirtualPath = A.hashIdToVirtualPath ∧
    B.fileCount = A.fileCount ∧
    B.directoryCount = A.directoryCount ∧
    B.totalSize = A.totalSize := by
  have hnum₁ : numOr md.mtime now₁ = m := by
    rw [hmt]
    show (if m = 0 then now₁ else m) = m
    rw [if_neg hm0]
  obtain ⟨s1A, hAeq, -⟩ :=
    vfsOnFileComplete_components rx rcfg filesPath now₁ hashId props s md v
      hmd hsp hv hvne
  obtain ⟨s1B, hBeq, hs1B⟩ :=
    vfsOnFileComplete_components rx rcfg filesPath now₂ hashId props A md v
      hmd hsp hv hvne
  rw [← hA] at hAeq
  rw [← hB] at hBeq
  have hAnodes : A.nodes = (addFileSync s1A v md now₁).nodes := by rw [hAeq]
  have hAsrc : A.sourcePathToVirtualPath =
      mapSet (addFileSync s1A v md now₁).sourcePathToVirtualPath
        md.sourcePath v := by rw [hAeq]
  have hAhash : A.hashIdToVirtualPath =
      mapSet (addFileSync s1A v md now₁).hashIdToVirtualPath hashId v := by
    rw [hAeq]
  have hAfc : A.fileCount = (addFileSync s1A v md now₁).fileCount := by rw [hAeq]
  have hAdc : A.directoryCount = (addFileSync s1A v md now₁).directoryCount := by
    rw [hAeq]
  have hAts : A.totalSize = (addFileSync s1A v md now₁).totalSize := by rw [hAeq]
  have hAlook : mapLookup A.hashIdToVirtualPath hashId = some v := by
    rw [hAhash]
    exact mapLookup_set_self _ _ _
  have hs1B2 : s1B = A := hs1B hAlook
  rw [hs1B2] at hBeq
  -- facts about A.nodes, transported from the first `addFileSync`
  have hlk := addFileSync_lookup_self s1A v md now₁
  rw [hnum₁, ← hAnodes] at hlk
  have hall := addFileSync_all_key s1A v md now₁
  rw [hnum₁] at hall
  rw [← hAnodes] at hall
  have hdirp := addFileSync_dir_present s1A v md now₁
  rw [← hAnodes] at hdirp
  have hchild := addFileSync_parent_child s1A v md now₁
  rw [← hAnodes] at hchild
  obtain ⟨hn2, hfc2, hts2, hdc2⟩ :=
    addFileSync_noop A v md now₂ m hmt hm0 hlk hall hdirp hchild
  have hBsrc : B.sourcePathToVirtualPath =
      mapSet (addFileSync A v md now₂).sourcePathToVirtualPath
        md.sourcePath v := by rw [hBeq]
  have hBhash : B.hashIdToVirtualPath =
      mapSet (addFileSync A v md now₂).hashIdToVirtualPath hashId v := by
    rw [hBeq]
  refine ⟨?_, ?_, ?_, ?_, ?_, ?_⟩
  · rw [hBeq]
    show (addFileSync A v md now₂).nodes = A.nodes
    exact hn2
  · rw [hBsrc, addFileSync_srcIndex, hAsrc, mapSet_set_same]
  · rw [hBhash, addFileSync_hashIndex, hAhash, mapSet_set_same]
  · rw [hBeq]
    show (addFileSync A v md now₂).fileCount = A.fileCount
    exact hfc2
  · rw [hBeq]
    show (addFileSync A v md now₂).directoryCount = A.directoryCount
    exact hdc2
  · rw [hBeq]
    show (addFileSync A v md now₂).totalSize = A.totalSize
    exact hts2

/-- A relevant `set` whose GET succeeds and whose update leaves the file
complete: the handler updates the per-file map and refreshes the VFS via
`onFileComplete` with the updated snapshot. -/
theorem handlePropertySet_complete_step (relevant : List String)
    (rx : String → String → Bool) (rcfg : RenamingConfig) (filesPath : String)
    (now : Int) (value hashId property : String) (t : SysState)
    (hrel : isVfsRelevantProperty property relevant = true)
    (hcomp : mapHas (mapSet ((mapLookup t.builder.filesState hashId).getD [])
      property value) "filePath" = true) :
    (handlePropertySet relevant rx rcfg filesPath now (some value) hashId
        property t).1.vfs =
      vfsOnFileComplete rx rcfg filesPath now hashId
        (mapSet ((mapLookup t.builder.filesState hashId).getD []) property value)
        t.vfs ∧
    (handlePropertySet relevant rx rcfg filesPath now (some value) hashId
        property t).1.builder.filesState =
      mapSet t.builder.filesState hashId
        (mapSet ((mapLookup t.builder.filesState hashId).getD []) property value) := by
  simp only [handlePropertySet]
  rw [if_neg (by simp [hrel])]
  simp only [updateProperty, getFileMetadata, isFileComplete]
  rw [mapLookup_set_self]
  by_cases hwc : isFileComplete
      { t.builder with propertiesFetched := t.builder.propertiesFetched + 1 }
      hashId
  · rw [if_neg (by simp [isFileComplete] at hwc ⊢; simp [hwc])]
    rw [if_pos (by simpa [isFileComplete] using hwc)]
    exact ⟨rfl, rfl⟩
  · rw [if_pos ⟨by simpa [isFileComplete] using hwc, hcomp⟩]
    exact ⟨rfl, rfl⟩

set_option maxHeartbeats 2000000 in
/-- C6 (amended): a duplicated relevant `set` event whose GET returns the
identical value both times is a no-op on the projection — node map, both
path indices, and the file/directory/size counters are unchanged after the
second application, and the builder's per-file map is unchanged — PROVIDED
the file's parsed metadata `mtime` is truthy (present, parseable and
non-zero).  Without that proviso the claim fails: `addFileSync` restamps
the node's `mtime`/`ctime` from the wall clock (`metadata.mtime ||
Date.now()`), so `lastRefresh` aside, the node itself differs when the
clock advanced between the duplicates. -/
theorem C6_amended_duplicate_set_noop (relevant : List String)
    (rx : String → String → Bool) (rcfg : RenamingConfig) (filesPath : String)
    (now₁ now₂ : Int) (value hashId property : String) (s s₁ s₂ : SysState)
    (md : FileMetadata) (v : String) (m : Int)
    (hrel : isVfsRelevantProperty property relevant = true)
    (hcomp : mapHas (mapSet ((mapLookup s.builder.filesState hashId).getD [])
      property value) "filePath" = true)
    (hmd : md = flatPropertiesToMetadata filesPath
      (mapSet ((mapLookup s.builder.filesState hashId).getD []) property value)
      hashId)
    (hsp : md.sourcePath ≠ "")
    (hv : v = computeVirtualPath rx rcfg md md.sourcePath)
    (hvne : v ≠ "")
    (hmt : md.mtime = some m) (hm0 : m ≠ 0)
    (hs₁ : s₁ = (handlePropertySet relevant rx rcfg filesPath now₁ (some value)
      hashId property s).1)
    (hs₂ : s₂ = (handlePropertySet relevant rx rcfg filesPath now₂ (some value)
      hashId property s₁).1) :
    s₂.vfs.nodes = s₁.vfs.nodes ∧
    s₂.vfs.sourcePathToVirtualPath = s₁.vfs.sourcePathToVirtualPath ∧
    s₂.vfs.hashIdToVirtualPath = s₁.vfs.hashIdToVirtualPath ∧
    s₂.vfs.fileCount = s₁.vfs.fileCount ∧
    s₂.vfs.directoryCount = s₁.vfs.directoryCount ∧
    s₂.vfs.totalSize = s₁.vfs.totalSize ∧
    s₂.builder.filesState = s₁.builder.filesState := by
  obtain ⟨h1v, h1f⟩ := handlePropertySet_complete_step relevant rx rcfg filesPath
    now₁ value hashId property s hrel hcomp
  rw [← hs₁] at h1v h1f
  have hsnap : (mapLookup s₁.builder.filesState hashId).getD [] =
      mapSet ((mapLookup s.builder.filesState hashId).getD []) property value := by
    rw [h1f, mapLookup_set_self]
    rfl
  have hsnap2 : mapSet ((mapLookup s₁.builder.filesState hashId).getD [])
      property value =
      mapSet ((mapLookup s.builder.filesState hashId).getD []) property value := by
    rw [hsnap, mapSet_set_same]
  have hcomp' : mapHas (mapSet ((mapLookup s₁.builder.filesState hashId).getD [])
      property value) "filePath" = true := by
    rw [hsnap2]
    exact hcomp
  obtain ⟨h2v, h2f⟩ := handlePropertySet_complete_step relevant rx rcfg filesPath
    now₂ value hashId property s₁ hrel hcomp'
  rw [← hs₂] at h2v h2f
  rw [hsnap2] at h2v
  have hvfs := vfsOnFileComplete_idem rx rcfg filesPath now₁ now₂ hashId
    (mapSet ((mapLookup s.builder.filesState hashId).getD []) property value)
    s.vfs s₁.vfs s₂.vfs md v m hmd hsp hv hvne hmt hm0 h1v h2v
  refine ⟨hvfs.1, hvfs.2.1, hvfs.2.2.1, hvfs.2.2.2.1, hvfs.2.2.2.2.1,
    hvfs.2.2.2.2.2, ?_⟩
  rw [h2f, hsnap2, h1f, mapSet_set_same]

/-- A system holding file `a` with only an `mtime` property (truthy once
parsed). -/
def sysM : SysState :=
  { builder := { builder0 with filesState := [("a", [("mtime", "5000")])] }
    vfs := initialVfs }

/-- The snapshot metadata of `a` after `filePath` is set in `sysM`. -/
def mdM : FileMetadata :=
  flatPropertiesToMetadata "/files"
    (mapSet ((mapLookup sysM.builder.filesState "a").getD []) "filePath" "a.mkv")
    "a"

/-- The virtual path computed for `a` in `sysM`. -/
def vM : String := computeVirtualPath rxNone cfgSame mdM mdM.sourcePath

/-- `sysM` after the first `filePath` set event (wall clock 100). -/
def sysM1 : SysState :=
  (handlePropertySet (extractVfsProperties cfgSame) rxNone cfgSame "/files" 100
    (some "a.mkv") "a" "filePath" sysM).1

/-- `sysM1` after the duplicated set event (wall clock 200). -/
def sysM2 : SysState :=
  (handlePropertySet (extractVfsProperties cfgSame) rxNone cfgSame "/files" 200
    (some "a.mkv") "a" "filePath" sysM1).1

/-- Witness for C6 (amended) on the `sysM` fixture. -/
theorem C6_amended_duplicate_set_noop_witness :
    (isVfsRelevantProperty "filePath" (extractVfsProperties cfgSame) = true ∧
     mapHas (mapSet ((mapLookup sysM.builder.filesState "a").getD [])
       "filePath" "a.mkv") "filePath" = true ∧
     mdM.sourcePath ≠ "" ∧ vM ≠ "" ∧ mdM.mtime = some 5000 ∧ (5000 : Int) ≠ 0) ∧
    (sysM2.vfs.nodes = sysM1.vfs.nodes ∧
     sysM2.vfs.sourcePathToVirtualPath = sysM1.vfs.sourcePathToVirtualPath ∧
     sysM2.vfs.hashIdToVirtualPath = sysM1.vfs.hashIdToVirtualPath ∧
     sysM2.vfs.fileCount = sysM1.vfs.fileCount ∧
     sysM2.vfs.directoryCount = sysM1.vfs.directoryCount ∧
     sysM2.vfs.totalSize = sysM1.vfs.totalSize ∧
     sysM2.builder.filesState = sysM1.builder.filesState) :=
  ⟨⟨by decide, by decide, by decide, by decide, by decide, by decide⟩,
   C6_amended_duplicate_set_noop (extractVfsProperties cfgSame) rxNone cfgSame
     "/files" 100 200 "a.mkv" "a" "filePath" sysM sysM1 sysM2 mdM vM 5000
     (by decide) (by decide) rfl (by decide) rfl (by decide) (by decide)
     (by decide) rfl rfl⟩

/-- `initialVfs` system (no `mtime` property for `a`). -/
def sysN1 : SysState :=
  (handlePropertySet (extractVfsProperties cfgSame) rxNone cfgSame "/files" 100
    (some "a.mkv") "a" "filePath" { builder := builder0, vfs := initialVfs }).1

/-- `sysN1` after the duplicated set event at wall clock 200. -/
def sysN2 : SysState :=
  (handlePropertySet (extractVfsProperties cfgSame) rxNone cfgSame "/files" 200
    (some "a.mkv") "a" "filePath" sysN1).1

/-- C6 counterexample: for a file without a (truthy) stored `mtime`, the
duplicated set event is NOT a no-op on the projection — `addFileSync`
restamps the node's `mtime`/`ctime` from the advanced wall clock, so the
node map differs after the second application. -/
theorem C6_counterexample : ¬ sysN2.vfs.nodes = sysN1.vfs.nodes := by decide
/-! ## C9 — empty-parent cleanup invariant -/

/-- No non-root directory entry has an empty children set (the property
claimed to hold after `onFileDelete`). -/
def noEmptyDirs (s : VfsState) : Prop :=
  ∀ e ∈ s.nodes, e.2.ntype = NodeType.directory → e.1 ≠ "/" →
    (e.2.children.getD []).length ≠ 0

/-- `noEmptyDirs` with a possible exception at the key `dp` (the directory
whose cleanup is pending). -/
def noEmptyDirsExcept (s : VfsState) (dp : Option String) : Prop :=
  ∀ e ∈ s.nodes, e.2.ntype = NodeType.directory → e.1 ≠ "/" →
    ((dp = some e.1 ∧ e.1 ≠ "") ∨ (e.2.children.getD []).length ≠ 0)

theorem mem_mapDelete (m : List (String × β)) (k : String) :
    ∀ e ∈ mapDelete m k, e ∈ m ∧ ¬ e.1 = k := by
  induction m with
  | nil => simp [mapDelete]
  | cons f fs ih =>
    intro e he
    by_cases hf : f.1 = k
    · rw [mapDelete, if_pos hf] at he
      obtain ⟨h1, h2⟩ := ih e he
      exact ⟨by simp [h1], h2⟩
    · rw [mapDelete, if_neg hf] at he
      rcases List.mem_cons.mp he with rfl | h2
      · exact ⟨by simp, hf⟩
      · obtain ⟨h1, h3⟩ := ih e h2
        exact ⟨by simp [h1], h3⟩

theorem keys_mapReplace (m : List (String × β)) (k : String) (v : β) :
    (mapReplace k v m).map Prod.fst = m.map Prod.fst := by
  induction m with
  | nil => rfl
  | cons f fs ih =>
    by_cases hf : f.1 = k
    · simp [mapReplace, hf, ih]
    · simp [mapReplace, hf, ih]

theorem keys_mapDelete_sublist (m : List (String × β)) (k : String) :
    ((mapDelete m k).map Prod.fst).Sublist (m.map Prod.fst) := by
  induction m with
  | nil => simp [mapDelete]
  | cons f fs ih =>
    by_cases hf : f.1 = k
    · rw [mapDelete, if_pos hf]
      exact ih.trans (by simp)
    · rw [mapDelete, if_neg hf]
      simpa using ih

theorem keys_cleanParentChildren (nodes : List (String × VFSNode))
    (po : Option String) (name : String) :
    (cleanParentChildren nodes po name).map Prod.fst = nodes.map Prod.fst := by
  cases po with
  | none => rfl
  | some pp =>
    by_cases hpp : pp = ""
    · simp [cleanParentChildren, hpp]
    · cases hl : mapLookup nodes pp with
      | none => simp [cleanParentChildren, hpp, hl]
      | some pn =>
        by_cases hd : pn.ntype = NodeType.directory
        · simp only [cleanParentChildren, hl, if_pos hd, ne_eq, hpp,
            not_false_eq_true, if_true]
          unfold mapSet
          rw [if_pos (mapHas_of_lookup _ _ _ hl)]
          exact keys_mapReplace _ _ _
        · simp [cleanParentChildren, hpp, hl, hd]

theorem mem_cleanParentChildren (nodes : List (String × VFSNode))
    (po : Option String) (name : String) :
    ∀ e ∈ cleanParentChildren nodes po name, e ∈ nodes ∨
      (∃ pp pn, po = some pp ∧ pp ≠ "" ∧ mapLookup nodes pp = some pn ∧
        pn.ntype = NodeType.directory ∧
        e = (pp, { pn with children := some (setDelete (pn.children.getD []) name) })) := by
  intro e he
  cases po with
  | none => exact Or.inl he
  | some pp =>
    by_cases hpp : pp = ""
    · rw [cleanParentChildren, if_neg (by simp [hpp])] at he
      exact Or.inl he
    · cases hl : mapLookup nodes pp with
      | none =>
        rw [cleanParentChildren, if_pos (by simp [hpp]), hl] at he
        exact Or.inl he
      | some pn =>
        by_cases hd : pn.ntype = NodeType.directory
        · rw [cleanParentChildren, if_pos (by simp [hpp]), hl] at he
          simp only [] at he
          rw [if_pos hd] at he
          unfold mapSet at he
          rw [if_pos (mapHas_of_lookup _ _ _ hl)] at he
          rcases mapReplace_mem _ _ _ e he with h2 | h2
          · exact Or.inr ⟨pp, pn, rfl, hpp, hl, hd, h2⟩
          · exact Or.inl h2
        · rw [cleanParentChildren, if_pos (by simp [hpp]), hl] at he
          simp only [] at he
          rw [if_neg hd] at he
          exact Or.inl he

theorem mapLookup_none_no_key (m : List (String × β)) (k : String)
    (h : mapLookup m k = none) : ∀ e ∈ m, ¬ e.1 = k := by
  induction m with
  | nil => simp
  | cons f fs ih =>
    intro e he
    by_cases hf : f.1 = k
    · rw [mapLookup, if_pos hf] at h
      exact Option.noConfusion h
    · rw [mapLookup, if_neg hf] at h
      rcases List.mem_cons.mp he with rfl | h2
      · exact hf
      · exact ih h e h2

theorem lookup_eq_of_nodup (m : List (String × VFSNode)) (k : String) (v : VFSNode)
    (hnd : (m.map Prod.fst).Nodup) (hlk : mapLookup m k = some v) :
    ∀ e ∈ m, e.1 = k → e = (k, v) := by
  induction m with
  | nil => simp
  | cons f fs ih =>
    rw [List.map_cons, List.nodup_cons] at hnd
    intro e he hk
    by_cases hf : f.1 = k
    · rw [mapLookup, if_pos hf] at hlk
      injection hlk with h2
      rcases List.mem_cons.mp he with rfl | h3
      · rw [← hk, ← h2]
      · exfalso
        apply hnd.1
        rw [hf, ← hk]
        exact List.mem_map_of_mem Prod.fst h3
    · rw [mapLookup, if_neg hf] at hlk
      rcases List.mem_cons.mp he with rfl | h3
      · exact absurd hk hf
      · exact ih hnd.2 hlk e h3 hk

theorem cleanEmpty_ok :
    ∀ (fuel : Nat) (s : VfsState) (dp : Option String),
      s.nodes.length < fuel →
      (s.nodes.map Prod.fst).Nodup →
      noEmptyDirsExcept s dp →
      noEmptyDirs (cleanEmptyDirectories fuel s dp) := by
  intro fuel
  induction fuel with
  | zero => intro s dp hf; omega
  | succ n ih =>
    intro s dp hf hnd hok
    simp only [cleanEmptyDirectories]
    cases dp with
    | none =>
      intro e he hdir hroot
      rcases hok e he hdir hroot with ⟨h1, -⟩ | h1
      · exact absurd h1 (by simp)
      · exact h1
    | some p =>
      simp only []
      by_cases hp : p = "" ∨ p = "/"
      · rw [if_pos hp]
        intro e he hdir hroot
        rcases hok e he hdir hroot with ⟨h1, h2⟩ | h1
        · injection h1 with h3
          rcases hp with hp | hp
          · exact absurd (hp ▸ h3.symm) h2
          · exact absurd h3.symm (hp ▸ hroot)
        · exact h1
      · rw [if_neg hp]
        cases hl : mapLookup s.nodes p with
        | none =>
          simp only []
          intro e he hdir hroot
          rcases hok e he hdir hroot with ⟨h1, -⟩ | h1
          · exfalso
            injection h1 with h3
            exact mapLookup_none_no_key s.nodes p hl e he h3.symm
          · exact h1
        | some node =>
          simp only []
          by_cases hdirn : node.ntype ≠ NodeType.directory
          · rw [if_pos hdirn]
            intro e he hdir hroot
            rcases hok e he hdir hroot with ⟨h1, -⟩ | h1
            · exfalso
              injection h1 with h3
              have := lookup_eq_of_nodup s.nodes p node hnd hl e he h3.symm
              rw [this] at hdir
              exact hdirn hdir
            · exact h1
          · rw [if_neg hdirn]
            by_cases hch : (node.children.getD []).length = 0
            · rw [if_pos hch]
              apply ih
              · have h1 := length_cleanParentChildren s.nodes node.parent node.name
                have h2 : mapHas (cleanParentChildren s.nodes node.parent node.name) p = true :=
                  mapHas_cleanParentChildren _ _ _ _ (mapHas_of_lookup _ _ _ hl)
                have h3 := length_mapDelete_lt _ _ h2
                simp only []
                omega
              · show ((mapDelete (cleanParentChildren s.nodes node.parent node.name) p).map
                  Prod.fst).Nodup
                exact ((keys_mapDelete_sublist _ _).trans
                  (by rw [keys_cleanParentChildren])).nodup hnd
              · intro e he hdir hroot
                obtain ⟨he2, hnep⟩ := mem_mapDelete _ _ e he
                rcases mem_cleanParentChildren _ _ _ e he2 with h2 | ⟨pp, pn, hpo, hppne, hlpp, hpd, rfl⟩
                · rcases hok e h2 hdir hroot with ⟨h3, -⟩ | h3
                  · exfalso
                    injection h3 with h4
                    exact hnep h4.symm
                  · exact Or.inr h3
                · exact Or.inl ⟨by rw [hpo], hppne⟩
            · rw [if_neg hch]
              intro e he hdir hroot
              rcases hok e he hdir hroot with ⟨h1, -⟩ | h1
              · injection h1 with h3
                have := lookup_eq_of_nodup s.nodes p node hnd hl e he h3.symm
                rw [this]
                simp only []
                exact hch
              · exact h1

theorem removeFile_noEmpty (s : VfsState) (vp : String)
    (hnd : (s.nodes.map Prod.fst).Nodup) (hinv : noEmptyDirs s) :
    noEmptyDirs (removeFile s vp) := by
  simp only [removeFile]
  split
  · exact hinv
  · rename_i node hlk
    split
    · exact hinv
    · rename_i hfile
      split
      · rename_i sp hsp
        split
        · apply cleanEmpty_ok
          · simp only []
            omega
          · show ((mapDelete (cleanParentChildren s.nodes node.parent node.name)
              (normalizePath vp)).map Prod.fst).Nodup
            exact ((keys_mapDelete_sublist _ _).trans
              (by rw [keys_cleanParentChildren])).nodup hnd
          · intro e he hdir hroot
            obtain ⟨he2, hnep⟩ := mem_mapDelete _ _ e he
            rcases mem_cleanParentChildren _ _ _ e he2 with h2 | ⟨pp, pn, hpo, hppne, hlpp, hpd, rfl⟩
            · exact Or.inr (hinv e h2 hdir hroot)
            · exact Or.inl ⟨by rw [hpo], hppne⟩
        · apply cleanEmpty_ok
          · simp only []
            omega
          · show ((mapDelete (cleanParentChildren s.nodes node.parent node.name)
              (normalizePath vp)).map Prod.fst).Nodup
            exact ((keys_mapDelete_sublist _ _).trans
              (by rw [keys_cleanParentChildren])).nodup hnd
          · intro e he hdir hroot
            obtain ⟨he2, hnep⟩ := mem_mapDelete _ _ e he
            rcases mem_cleanParentChildren _ _ _ e he2 with h2 | ⟨pp, pn, hpo, hppne, hlpp, hpd, rfl⟩
            · exact Or.inr (hinv e h2 hdir hroot)
            · exact Or.inl ⟨by rw [hpo], hppne⟩
      · apply cleanEmpty_ok
        · simp only []
          omega
        · show ((mapDelete (cleanParentChildren s.nodes node.parent node.name)
            (normalizePath vp)).map Prod.fst).Nodup
          exact ((keys_mapDelete_sublist _ _).trans
            (by rw [keys_cleanParentChildren])).nodup hnd
        · intro e he hdir hroot
          obtain ⟨he2, hnep⟩ := mem_mapDelete _ _ e he
          rcases mem_cleanParentChildren _ _ _ e he2 with h2 | ⟨pp, pn, hpo, hppne, hlpp, hpd, rfl⟩
          · exact Or.inr (hinv e h2 hdir hroot)
          · exact Or.inl ⟨by rw [hpo], hppne⟩

/-- C9: after `onFileDelete(id)`, no non-root directory in the projection
has an empty children set — provided the pre-state's node map has unique
keys (as a JS `Map` always has) and already satisfies the invariant; the
file removal walks upward deleting every ancestor directory whose children
set became empty. -/
theorem C9_empty_parent_cleanup (hashId : String) (s : VfsState)
    (hnd : (s.nodes.map Prod.fst).Nodup) (hinv : noEmptyDirs s) :
    noEmptyDirs (vfsOnFileDelete hashId s) := by
  simp only [vfsOnFileDelete]
  split
  · split
    · intro e he hdir hroot
      exact removeFile_noEmpty s _ hnd hinv e he hdir hroot
    · exact hinv
  · exact hinv

/-- A rule placing every file under the `Shows` directory. -/
def ruleDir : RenamingRule :=
  { id := "d2", enabled := true, priority := 0, condOperator := "AND",
    conditions := [], template := "Shows/ep.mkv", fallbackToUnsorted := false }

/-- A config with `ruleDir` as default rule. -/
def cfgDir : RenamingConfig :=
  { version := 1, rules := [], lastModified := none, isDefault := none,
    defaultRule := some ruleDir }

/-- A projection holding one file at `/Shows/ep.mkv`. -/
def vfsDir : VfsState :=
  vfsOnFileComplete rxNone cfgDir "/files" 100 "a" [("filePath", "a.mkv")]
    initialVfs

/-- Witness for C9: deleting the only file under `/Shows` removes the
then-empty `Shows` directory, and no non-root directory with empty
children remains. -/
theorem C9_empty_parent_cleanup_witness :
    ((vfsDir.nodes.map Prod.fst).Nodup ∧ noEmptyDirs vfsDir) ∧
    noEmptyDirs (vfsOnFileDelete "a" vfsDir) :=
  ⟨⟨by decide, by unfold noEmptyDirs; decide⟩,
   C9_empty_parent_cleanup "a" vfsDir (by decide) (by unfold noEmptyDirs; decide)⟩
/-! ## C8 — ConfigStorage.saveRulesConfig (ConfigStorage.ts)

The config directory is modelled as an association list from file name
(within `configDir`) to the parsed `RenamingConfig` content
(`JSON.stringify`/`JSON.parse` are assumed to round-trip); `readdirSync`
enumeration follows the list order.  Every filesystem call made by
`saveRulesConfig`/`cleanupBackups` is recorded as an `FsOp`; the `rename`
operation is in the vocabulary so that the absence of a temp-then-rename
step is expressible.  `Date.now()` is the explicit `now` argument and
`new Date().toISOString()` is modelled by the injective `isoString`. -/

def rulesFileName : String := "renaming-rules.json"

inductive FsOp where
  | copyFile (src dst : String)
  | unlink (p : String)
  | writeFile (p : String)
  | rename (src dst : String)
  deriving Repr, DecidableEq

def isRenameOp : FsOp → Bool
  | .rename _ _ => true
  | _ => false

def strEndsWith (s suffix : String) : Bool := decide (suffix.data <:+ s.data)

/-- `String.prototype.replace` with a plain-string pattern: replace the
first occurrence only. -/
def replaceFirstAux (pat repl : List Char) : List Char → List Char
  | [] => []
  | c :: rest =>
      if pat <+: (c :: rest) then repl ++ (c :: rest).drop pat.length
      else c :: replaceFirstAux pat repl rest

def jsReplaceFirst (s pat repl : String) : String :=
  String.mk (replaceFirstAux pat.data repl.data s.data)

/-- `f.startsWith('renaming-rules.backup.') && f.endsWith('.json')`. -/
def isBackupName (f : String) : Bool :=
  strStartsWith f "renaming-rules.backup." && strEndsWith f ".json"

/-- `parseInt(f.replace('renaming-rules.backup.', '').replace('.json', ''), 10)`
(`none` = `NaN`). -/
def backupTime (f : String) : Option Int :=
  jsParseInt (jsReplaceFirst (jsReplaceFirst f "renaming-rules.backup." "")
    ".json" "")

/-- The comparator `(a, b) => b.time - a.time` under `Array.prototype.sort`:
`a` stays before `b` iff the comparator is not positive; a `NaN` result
counts as zero (order kept). -/
def backupLe (a b : String × Option Int) : Bool :=
  match a.2, b.2 with
  | some x, some y => decide (y ≤ x)
  | _, _ => true

def isoString (ms : Int) : String := "1970-01-01T00:00:00." ++ toString ms ++ "Z"

/-- `ConfigStorage.cleanupBackups()` (keepCount 5): returns the directory
after the unlinks, and the unlink trace. -/
def cleanupBackups (fs : List (String × RenamingConfig)) :
    List (String × RenamingConfig) × List FsOp :=
  let backups := ((fs.map Prod.fst).filter isBackupName).map
    (fun f => (f, backupTime f))
  let sorted := sortStableG backupLe backups
  let toRemove := sorted.drop 5
  (toRemove.foldl (fun acc p => mapDelete acc p.1) fs,
   toRemove.map (fun p => FsOp.unlink p.1))

/-- `ConfigStorage.saveRulesConfig(config)`: back up the existing file,
clean old backups, then write the stripped and restamped config directly
to `renaming-rules.json`. -/
def saveRulesConfig (now : Int) (fs : List (String × RenamingConfig))
    (config : RenamingConfig) : List (String × RenamingConfig) × List FsOp :=
  let configToSave : RenamingConfig :=
    { config with isDefault := none, lastModified := some (isoString now) }
  match mapLookup fs rulesFileName with
  | some cur =>
      let backupName := "renaming-rules.backup." ++ toString now ++ ".json"
      let fs1 := mapSet fs backupName cur
      let cleaned := cleanupBackups fs1
      (mapSet cleaned.1 rulesFileName configToSave,
       (FsOp.copyFile rulesFileName backupName :: cleaned.2) ++
         [FsOp.writeFile rulesFileName])
  | none =>
      (mapSet fs rulesFileName configToSave, [FsOp.writeFile rulesFileName])

theorem lookup_foldl_delete (names : List (String × Option Int)) :
    ∀ (acc : List (String × RenamingConfig)) (f : String),
      mapLookup (names.foldl (fun a p => mapDelete a p.1) acc) f =
        if f ∈ names.map Prod.fst then none else mapLookup acc f := by
  induction names with
  | nil => intro acc f; simp
  | cons n ns ih =>
    intro acc f
    rw [List.foldl_cons, ih]
    by_cases h1 : f ∈ ns.map Prod.fst
    · simp [h1]
    · by_cases h2 : f = n.1
      · simp [h1, h2, mapLookup_delete_self]
      · simp [h1, h2, mapLookup_delete_other _ _ _ h2]

/-- C8 counterexample: saving over an existing config file emits exactly a
backup copy followed by a direct write of `renaming-rules.json`; no
`rename` operation occurs, so the write is not atomic temp-then-rename. -/
theorem C8_counterexample :
    (saveRulesConfig 777 [(rulesFileName, cfgSame)] cfgSame).2 =
      [FsOp.copyFile "renaming-rules.json" "renaming-rules.backup.777.json",
       FsOp.writeFile "renaming-rules.json"] ∧
    (saveRulesConfig 777 [(rulesFileName, cfgSame)] cfgSame).2.any isRenameOp
      = false := by
  refine ⟨by decide, by decide⟩

/-- C8 (amended): when a config file exists, `saveRulesConfig` copies it to
`renaming-rules.backup.<epoch-ms>.json`, unlinks every backup beyond the
five most recent by parsed timestamp, and then writes the config — with
`isDefault` stripped and `lastModified` stamped with the save time —
directly (and non-atomically: no temp-then-rename, no `rename` operation)
to `renaming-rules.json` as the final operation. -/
theorem C8_amended_save_behavior (now : Int)
    (fs : List (String × RenamingConfig)) (config cur : RenamingConfig)
    (hcur : mapLookup fs rulesFileName = some cur) :
    (saveRulesConfig now fs config).2.any isRenameOp = false ∧
    (saveRulesConfig now fs config).2.getLast? =
      some (FsOp.writeFile rulesFileName) ∧
    FsOp.copyFile rulesFileName
        ("renaming-rules.backup." ++ toString now ++ ".json") ∈
      (saveRulesConfig now fs config).2 ∧
    mapLookup (saveRulesConfig now fs config).1 rulesFileName =
      some { config with isDefault := none
                         lastModified := some (isoString now) } ∧
    (∀ p t, (p, t) ∈ (sortStableG backupLe
        ((((mapSet fs ("renaming-rules.backup." ++ toString now ++ ".json")
            cur).map Prod.fst).filter isBackupName).map
          (fun f => (f, backupTime f)))).drop 5 →
      mapLookup (saveRulesConfig now fs config).1 p = none) := by
  simp only [saveRulesConfig, cleanupBackups, hcur]
  refine ⟨?_, ?_, ?_, ?_, ?_⟩
  · simp only [List.any_append, List.any_cons, Bool.or_eq_false_iff,
      List.any_eq_false]
    refine ⟨⟨rfl, ?_⟩, by simp [isRenameOp]⟩
    intro x hx
    obtain ⟨q, -, rfl⟩ := List.mem_map.mp hx
    simp [isRenameOp]
  · rw [List.getLast?_concat]
  · simp
  · exact mapLookup_set_self _ _ _
  · intro p t hmem
    have hsorted : (p, t) ∈ sortStableG backupLe
        ((((mapSet fs ("renaming-rules.backup." ++ toString now ++ ".json")
            cur).map Prod.fst).filter isBackupName).map
          (fun f => (f, backupTime f))) :=
      List.mem_of_mem_drop hmem
    have hbks := mem_sortStableG _ _ _ hsorted
    obtain ⟨f, hf, hfe⟩ := List.mem_map.mp hbks
    obtain ⟨-, hbp⟩ := List.mem_filter.mp hf
    injection hfe with hfe1 hfe2
    subst hfe1
    have hpns : f ≠ rulesFileName := by
      intro hc
      rw [hc] at hbp
      exact absurd hbp (by decide)
    rw [mapLookup_set_other _ _ _ _ hpns, lookup_foldl_delete]
    rw [if_pos (List.mem_map.mpr ⟨(f, t), hmem, rfl⟩)]

/-- A config directory holding the rules file and six timestamped
backups. -/
def fsW : List (String × RenamingConfig) :=
  [(rulesFileName, cfgSame),
   ("renaming-rules.backup.1.json", cfgSame),
   ("renaming-rules.backup.2.json", cfgSame),
   ("renaming-rules.backup.3.json", cfgSame),
   ("renaming-rules.backup.4.json", cfgSame),
   ("renaming-rules.backup.5.json", cfgSame),
   ("renaming-rules.backup.6.json", cfgSame)]

/-- Witness for C8 (amended): saving at epoch 7 over `fsW` backs the file
up, unlinks the two oldest of the seven backups, and rewrites the rules
file in place. -/
theorem C8_amended_save_behavior_witness :
    mapLookup fsW rulesFileName = some cfgSame ∧
    ((saveRulesConfig 7 fsW cfgSame).2.any isRenameOp = false ∧
     (saveRulesConfig 7 fsW cfgSame).2.getLast? =
       some (FsOp.writeFile rulesFileName) ∧
     FsOp.copyFile rulesFileName
         ("renaming-rules.backup." ++ toString (7 : Int) ++ ".json") ∈
       (saveRulesConfig 7 fsW cfgSame).2 ∧
     mapLookup (saveRulesConfig 7 fsW cfgSame).1 rulesFileName =
       some { cfgSame with isDefault := none
                           lastModified := some (isoString 7) } ∧
     (∀ p t, (p, t) ∈ (sortStableG backupLe
         ((((mapSet fsW ("renaming-rules.backup." ++ toString (7 : Int) ++
             ".json") cfgSame).map Prod.fst).filter isBackupName).map
           (fun f => (f, backupTime f)))).drop 5 →
       mapLookup (saveRulesConfig 7 fsW cfgSame).1 p = none)) :=
  ⟨rfl, C8_amended_save_behavior 7 fsW cfgSame cfgSame rfl⟩

end MetaFuse
